import Mathlib

/-!
# Verification of the futsal team-balancer core

Shallow embedding of the team-partitioning, snake-draft balancing, composition
signature, and bibs ("duty rotation") tracking logic of the WhatsApp futsal
bot (`server.js`, `teamMaker.js`), together with proofs of the specified
properties.

Modelling conventions:
* JavaScript numbers that hold ratings and balance scores are modelled by
  exact rationals (`Rat`).
* `Math.random()`-driven choices are modelled by explicit oracle parameters
  (`rand : Nat → Nat` index oracles, `coins : Nat → Bool` for the 50% coin):
  `Math.floor(Math.random() * n)` is an arbitrary value in `[0, n)`, modelled
  as `rand i % n`.
* The persisted JSON store object (identifier keys plus the reserved
  `__lastWasher` key) is modelled as a record with an association list of
  counts and an optional last-washer field; normalized keys are lowercase
  while the reserved key contains an uppercase `W`, so they never collide.
* `String.localeCompare` is modelled by the lexicographic linear order on
  strings (a total, antisymmetric comparison, which is what the sorting in
  `teamKey` relies on).
-/

namespace FutsalBot

/-! ## Characters, trimming and name normalization -/

/-- Whitespace recognised by trimming (models JS `trim` on ASCII input). -/
def isWsChar (c : Char) : Bool :=
  c = ' ' || c = '\t' || c = '\n' || c = '\r'

/-- Strip leading and trailing whitespace from a character list. -/
def trimChars (l : List Char) : List Char :=
  ((l.dropWhile isWsChar).reverse.dropWhile isWsChar).reverse

/-- Models `String.prototype.trim`. -/
def jsTrim (s : String) : String :=
  ⟨trimChars s.data⟩

/-- Unicode combining marks U+0300–U+036F, stripped by `normalizeNameKey`. -/
def isCombiningMark (c : Char) : Bool :=
  0x300 ≤ c.toNat && c.toNat ≤ 0x36f

/-- Models `normalizeNameKey` from `server.js`: lowercase, NFD-decompose,
strip combining marks, trim.  JS applies Unicode NFD decomposition before the
combining-mark strip; on ASCII strings NFD is the identity and it is modelled
as the identity here, while the combining-mark removal and the trim are kept
faithfully.  The `if` mirrors `if (!name) return ''`. -/
def normalizeNameKey (name : String) : String :=
  if name = "" then ""
  else
    let lower := name.data.map Char.toLower
    let decomp := lower.filter (fun c => !isCombiningMark c)
    ⟨trimChars decomp⟩

/-! ## The bibs store -/

/-- The persisted bibs store: per-normalized-key counts plus the reserved
`__lastWasher` field (see the modelling note in the file header). -/
structure Store where
  counts : List (String × Nat)
  lastWasher : Option String
deriving DecidableEq

/-- The empty store (file absent / corrupt fallback). -/
def emptyStore : Store := ⟨[], none⟩

/-- JS object property read (`obj[key]`), `none` when absent. -/
def alookup : List (String × Nat) → String → Option Nat
  | [], _ => none
  | (k, v) :: rest, key => if k = key then some v else alookup rest key

/-- JS object property write (`obj[key] = n`). -/
def aset : List (String × Nat) → String → Nat → List (String × Nat)
  | [], key, n => [(key, n)]
  | (k, v) :: rest, key, n =>
    if k = key then (key, n) :: rest else (k, v) :: aset rest key n

/-- `store[key] || 0`. -/
def storeCount (s : Store) (key : String) : Nat :=
  (alookup s.counts key).getD 0

/-- Models `incBibsCount`: read the store, and only when the normalized key
differs from the recorded last washer, increment that key's count and record
the key as last washer.  Returns the (possibly unchanged) count together with
the (possibly unchanged) persisted store. -/
def incBibsCount (name : String) (s : Store) : Nat × Store :=
  let key := normalizeNameKey name
  if s.lastWasher = some key then
    (storeCount s key, s)
  else
    let n := storeCount s key + 1
    (n, ⟨aset s.counts key n, some key⟩)

/-- Models `getBibsCount`. -/
def getBibsCount (s : Store) (name : String) : Nat :=
  storeCount s (normalizeNameKey name)

/-- Models `getLastWasherKey` (`store.__lastWasher || null`; the empty string
is falsy in JS, hence the inner test). -/
def getLastWasherKey (s : Store) : Option String :=
  match s.lastWasher with
  | none => none
  | some k => if k = "" then none else some k

/-! ## readStore: file and JSON parsing model -/

/-- Outcome of reading the store file.  The filesystem is outside the core;
it is modelled by the three observable outcomes of `fs.readFileSync`. -/
inductive FileRead : Type where
  | missing : FileRead
  | ioError : FileRead
  | content : String → FileRead

/-- Outcome of `JSON.parse` on the raw file text, as observed by `readStore`:
an exception, the JS value `null` (which is falsy yet has `typeof 'object'`),
a non-object value (number, string, boolean), or an object, which is the
decoded store.  `JSON.parse` itself is a JS builtin outside the repository
and is modelled as an oracle classifying the raw text. -/
inductive JsParse : Type where
  | throws : JsParse
  | nullv : JsParse
  | nonObject : JsParse
  | obj : Store → JsParse

/-- Models `readStore`: a missing file or a read error yields the empty
store; otherwise the raw text (defaulted to `"\x7b\x7d"` when empty, i.e.
`raw || '\x7b\x7d'`) is parsed, and any outcome other than an object yields
the empty store. -/
def readStore (r : FileRead) (parse : String → JsParse) : Store :=
  match r with
  | .missing => emptyStore
  | .ioError => emptyStore
  | .content raw =>
    match parse (if raw = "" then "\x7b\x7d" else raw) with
    | .throws => emptyStore
    | .nullv => emptyStore
    | .nonObject => emptyStore
    | .obj s => s

/-! ## pickBibsNext -/

/-- One step of the bucketing loop in `pickBibsNext`: update the running
minimum (`Infinity` is modelled by `none`) and append the name to its
count's bucket. -/
def bibsStep (s : Store) (acc : Option Nat × (Nat → List String)) (n : String) :
    Option Nat × (Nat → List String) :=
  let c := getBibsCount s n
  let min' : Option Nat :=
    match acc.1 with
    | none => some c
    | some m => if c < m then some c else some m
  (min', fun k => if k = c then acc.2 k ++ [n] else acc.2 k)

/-- Models `pickBibsNext`: among the current names, bucket by bibs count,
take the minimum-count bucket, drop candidates whose normalized key equals
the last recorded washer when at least one other candidate remains, and pick
a random remaining candidate (`rand` is the randomness oracle). -/
def pickBibsNext (rand : Nat) (currentNames : List String) (s : Store) : String :=
  let acc := currentNames.foldl (bibsStep s) (none, fun _ => [])
  let candidates :=
    match acc.1 with
    | none => currentNames
    | some m => acc.2 m
  let lastWasherKey := getLastWasherKey s
  let filtered := candidates.filter (fun n => some (normalizeNameKey n) != lastWasherKey)
  let candidates := if filtered.length != 0 then filtered else candidates
  candidates.getD (rand % candidates.length) ""

/-! ## Shuffling (Fisher–Yates) and the random partitioner -/

/-- One swap `[a[i], a[j]] = [a[j], a[i]]` of the shuffle loop; out-of-range
indices leave the list unchanged (they never occur in the loop). -/
def jsSwap {α : Type} (l : List α) (i j : Nat) : List α :=
  match l[i]?, l[j]? with
  | some a, some b => (l.set i b).set j a
  | _, _ => l

/-- The loop of `shuffle`, indices `i = n, n-1, …, 1`, each picking
`j = Math.floor(Math.random() * (i + 1))`, an arbitrary value in `[0, i]`
supplied by the oracle as `rand i % (i + 1)`. -/
def fyAux {α : Type} (rand : Nat → Nat) : Nat → List α → List α
  | 0, l => l
  | i + 1, l => fyAux rand i (jsSwap l (i + 1) (rand (i + 1) % (i + 2)))

/-- Models `shuffle` (Fisher–Yates on a copy). -/
def jsShuffle {α : Type} (rand : Nat → Nat) (l : List α) : List α :=
  fyAux rand (l.length - 1) l

/-- Models `makeTeamsRandom`: shuffle, then slice `[0,5)`, `[5,10)`, `[10,15)`. -/
def makeTeamsRandom (rand : Nat → Nat) (players15 : List String) : List (List String) :=
  let s := jsShuffle rand players15
  [s.take 5, (s.drop 5).take 5, (s.drop 10).take 5]

/-- `[...new Set(names)]`: deduplication keeping first occurrences. -/
def jsDedupAux : List String → List String → List String
  | _, [] => []
  | seen, x :: xs =>
    if seen.contains x then jsDedupAux seen xs else x :: jsDedupAux (x :: seen) xs

/-- JS `Set`-based deduplication (insertion order, first occurrence kept). -/
def jsDedup (l : List String) : List String := jsDedupAux [] l

/-- Models `makeThreeTeamsOfFive` from `teamMaker.js`: trim names, drop empty
ones, require exactly 15, require them pairwise distinct, then deal a
shuffled copy into three slices of five. -/
def makeThreeTeamsOfFive (rand : Nat → Nat) (players : List String) :
    Except String (List (List String)) :=
  let names := (players.map jsTrim).filter (fun s => s != "")
  if names.length != 15 then .error "Need exactly 15 players"
  else
    let unique := jsDedup names
    if unique.length != 15 then .error "Duplicate names detected"
    else
      let dealt := jsShuffle rand unique
      .ok [dealt.take 5, (dealt.drop 5).take 5, (dealt.drop 10).take 5]

/-! ## Snake draft -/

/-- Models `buildSnakeOrder`: five rounds, each visiting the groups forward
(`[0,1,2]`) when `(r even) XOR reverseFirstRound`, else backward, each group
index rotated by `startTeam` mod 3. -/
def buildSnakeOrder (startTeam : Nat) (reverseFirstRound : Bool) : List Nat :=
  (List.range 5).flatMap (fun r =>
    let forward := Bool.xor (r % 2 == 0) reverseFirstRound
    let seq := if forward then [0, 1, 2] else [2, 1, 0]
    seq.map (fun t => (t + startTeam) % 3))

/-- `out[g].push(x)` on a list of teams. -/
def pushAt (out : List (List String)) (g : Nat) (x : String) : List (List String) :=
  out.set g (out.getD g [] ++ [x])

/-- Models `makeTeamsSnakeWithOrder`: push the `i`-th strongest name onto the
team designated by the snake order, for `i = 0, …, 14`. -/
def makeTeamsSnakeWithOrder (sortedStrongToWeakNames : List String)
    (startTeam : Nat) (reverseFirstRound : Bool) : List (List String) :=
  let order := buildSnakeOrder startTeam reverseFirstRound
  (List.range 15).foldl
    (fun out i => pushAt out (order.getD i 0) (sortedStrongToWeakNames.getD i ""))
    [[], [], []]

/-! ## Balance scoring and the composition signature -/

/-- Models `computeTeamSums`; the rating map lookup `ratingMap.get(name) || 0`
is modelled as a total function into `Rat`. -/
def computeTeamSums (teams : List (List String)) (rm : String → Rat) : List Rat :=
  teams.map (fun team => team.foldl (fun sum name => sum + rm name) 0)

/-- The balance score of a composition: spread, population variance and the
per-team sums. -/
structure Score where
  spread : Rat
  variance : Rat
  sums : List Rat
deriving DecidableEq

/-- Models `balanceScore` (the produced compositions always have exactly
three teams, so `Math.max(...sums)` and `sums[0]+sums[1]+sums[2]` read the
three entries). -/
def balanceScore (teams : List (List String)) (rm : String → Rat) : Score :=
  let sums := computeTeamSums teams rm
  let s0 := sums.getD 0 0
  let s1 := sums.getD 1 0
  let s2 := sums.getD 2 0
  let maxSum := max (max s0 s1) s2
  let minSum := min (min s0 s1) s2
  let spread := maxSum - minSum
  let mean := (s0 + s1 + s2) / 3
  let variance := sums.foldl (fun acc s => acc + (s - mean) ^ 2) 0 / 3
  ⟨spread, variance, sums⟩

/-- `Array.prototype.join(sep)`. -/
def joinSep (sep : String) (ss : List String) : String :=
  match ss with
  | [] => ""
  | x :: xs => xs.foldl (fun acc s => acc ++ sep ++ s) x

/-- Strict lexicographic comparison of character lists (by code point). -/
def strLtB : List Char → List Char → Bool
  | [], [] => false
  | [], _ :: _ => true
  | _ :: _, [] => false
  | a :: as, b :: bs =>
    if a < b then true else if b < a then false else strLtB as bs

/-- The sort comparator (`(a,b) => a.localeCompare(b)`), modelled as the
lexicographic (code point) order on strings. -/
def strLe (a b : String) : Prop := strLtB b.data a.data = false

instance : DecidableRel strLe := fun a b =>
  inferInstanceAs (Decidable (strLtB b.data a.data = false))

/-- Ascending sort of strings as performed by `Array.prototype.sort`,
modelled as a stable comparator sort. -/
def sortStrings (l : List String) : List String := l.insertionSort strLe

/-- Models `teamKey`: sort each team's names and join with `"|"`, then sort
the three team strings and join with `"||"` — a signature invariant to
within-team order and to color (slot) assignment. -/
def teamKey (teams : List (List String)) : String :=
  let teamStrings := teams.map (fun t => joinSep "|" (sortStrings t))
  joinSep "||" (sortStrings teamStrings)

/-! ## Candidate enumeration and selection -/

/-- One snake candidate as assembled in `bestBalancedSnakeForOrder`. -/
structure Cand where
  teams : List (List String)
  key : String
  spread : Rat
  variance : Rat
  sums : List Rat
  startTeam : Nat
  reverseFirst : Bool
deriving DecidableEq

instance : Inhabited Cand := ⟨⟨[], "", 0, 0, [], 0, false⟩⟩

/-- Build the candidate for a given start team and first-round direction. -/
def mkCand (names : List String) (rm : String → Rat) (st : Nat) (rev : Bool) : Cand :=
  let teams := makeTeamsSnakeWithOrder names st rev
  let key := teamKey teams
  let sc := balanceScore teams rm
  ⟨teams, key, sc.spread, sc.variance, sc.sums, st, rev⟩

/-- The six candidates in enumeration order: `startTeam` 0,1,2 outer loop,
`reverseFirst` `false` then `true` inner loop. -/
def snakeCandidates (names : List String) (rm : String → Rat) : List Cand :=
  [0, 1, 2].flatMap (fun st => [false, true].map (fun rev => mkCand names rm st rev))

/-- The update test of the selection loop:
`cand.spread < best.spread || (cand.spread === best.spread && cand.variance < best.variance)`. -/
def candBetter (cand best : Cand) : Bool :=
  decide (cand.spread < best.spread) ||
    (decide (cand.spread = best.spread) && decide (cand.variance < best.variance))

/-- Models `bestBalancedSnakeForOrder`: fold the six candidates, replacing
the running best exactly when `candBetter` holds (`!best` seeds the first). -/
def bestBalancedSnakeForOrder (names : List String) (rm : String → Rat) : Option Cand :=
  (snakeCandidates names rm).foldl
    (fun best cand =>
      match best with
      | none => some cand
      | some b => if candBetter cand b then some cand else some b)
    none

/-! ## Tier shuffling and the novelty search -/

/-- Models `tierShuffleNames`: shuffle each consecutive block of three
(`i = 0, 3, 6, 9, 12`), concatenating the results; `rand2 k` is the
randomness oracle for block `k`. -/
def tierShuffleNames (rand2 : Nat → Nat → Nat) (names : List String) : List String :=
  (List.range 5).flatMap (fun k => jsShuffle (rand2 k) ((names.drop (3 * k)).take 3))

/-- The ordering examined at attempt `a` of `chooseNewBalancedSnake`: the
base ordering, or (when the coin oracle says `Math.random() < 0.5`) its
block-perturbed variant. -/
def chooseAttemptOrder (coins : Nat → Bool) (rands : Nat → Nat → Nat → Nat)
    (base : List String) (a : Nat) : List String :=
  if coins a then tierShuffleNames (rands a) base else base

/-- The attempt loop of `chooseNewBalancedSnake`: at most `fuel` further
attempts starting at index `a`; returns the first per-ordering best whose
key is not yet seen, `none` when the budget is exhausted. -/
def chooseLoop (coins : Nat → Bool) (rands : Nat → Nat → Nat → Nat)
    (base : List String) (rm : String → Rat) (seen : List String) :
    Nat → Nat → Option Cand
  | _, 0 => none
  | a, fuel + 1 =>
    match bestBalancedSnakeForOrder (chooseAttemptOrder coins rands base a) rm with
    | none => none
    | some best =>
      if seen.contains best.key then chooseLoop coins rands base rm seen (a + 1) fuel
      else some best

/-- Models `chooseNewBalancedSnake`: run up to `attempts` attempts, falling
back to the best candidate for the unperturbed base ordering. -/
def chooseNewBalancedSnake (coins : Nat → Bool) (rands : Nat → Nat → Nat → Nat)
    (base : List String) (rm : String → Rat) (seen : List String)
    (attempts : Nat) : Option Cand :=
  match chooseLoop coins rands base rm seen 0 attempts with
  | some best => some best
  | none => bestBalancedSnakeForOrder base rm

/-! ## The webhook text branch (store effects) -/

/-- The roster modes produced by `parseRoster`. -/
inductive RosterMode : Type where
  | random : RosterMode
  | snake : RosterMode
  | snakeOrder : RosterMode
deriving DecidableEq

/-- The parse result consumed by the text branch.  For the `snake` mode the
players also carry ratings; only the name list, its length and the tagged
names drive the store side effects modelled here. -/
structure ParsedRoster where
  mode : RosterMode
  players : List String
  bibsTagged : List String
deriving DecidableEq

/-- Record the bibs tags of one submission: deduplicate, then call
`incBibsCount` for each tagged name in order (each call persists the store). -/
def recordBibsTags (tags : List String) (store : Store) : Store :=
  (jsDedup tags).foldl (fun st name => (incBibsCount name st).2) store

/-- Models the store effects and composition production of the text-message
branch of `app.post('/webhook')` for a roster submission (the `lang`,
`bibs_history` and `tutorial` command branches touch neither the store nor a
composition and are conditioned away).  `shownTutorial` is
`shownTutorialUsers.has(from)`, `canRecord` the webhook-retry dedup check.
Returns the resulting persisted store and whether a composition was produced
and sent.  Mirrors the source order: first-time tutorial gate, then bibs-tag
recording, then the per-mode 15-player validation. -/
def handleTextRoster (shownTutorial canRecord : Bool) (probe : ParsedRoster)
    (store : Store) : Store × Bool :=
  if !shownTutorial && probe.players.length != 15 then
    (store, false)
  else
    let store' :=
      if canRecord && probe.bibsTagged.length != 0 then recordBibsTags probe.bibsTagged store
      else store
    match probe.mode with
    | .snake => if probe.players.length != 15 then (store', false) else (store', true)
    | .snakeOrder => if probe.players.length != 15 then (store', false) else (store', true)
    | .random => if probe.players.length = 15 then (store', true) else (store', false)

/-! ## Specification-side definitions -/

/-- The spec's snake assignment rule: identifier `i` (round `r = i / 3`)
goes to group `(t + startTeam) % 3` where `t` is the `(i % 3)`-th entry of
`[0,1,2]` when `(r even) XOR reverseFirstRound`, of `[2,1,0]` otherwise. -/
def snakeGroupOfIndex (startTeam : Nat) (rev : Bool) (i : Nat) : Nat :=
  let r := i / 3
  let t := if Bool.xor (r % 2 == 0) rev then i % 3 else 2 - i % 3
  (t + startTeam) % 3

/-- The partition-completeness property of a produced composition: three
groups of five, pairwise disjoint, whose union is exactly the roster. -/
def isValidComposition (teams : List (List String)) (players : List String) : Prop :=
  teams.map List.length = [5, 5, 5] ∧
  List.Pairwise List.Disjoint teams ∧
  (∀ x, x ∈ teams.flatten ↔ x ∈ players) ∧
  teams.flatten.Nodup

/-- Lexicographic `≤` on balance scores (spread first, then variance). -/
def candLexLe (a b : Cand) : Prop :=
  a.spread < b.spread ∨ (a.spread = b.spread ∧ a.variance ≤ b.variance)

/-- Strict lexicographic `<` on balance scores. -/
def candLexLt (a b : Cand) : Prop :=
  a.spread < b.spread ∨ (a.spread = b.spread ∧ a.variance < b.variance)

/-- The minimum bibs count over a roster (`none` for the empty roster). -/
def minCountOf (s : Store) (names : List String) : Option Nat :=
  (names.map (getBibsCount s)).min?

/-- The running-minimum update of the bucketing loop, isolated. -/
def minOptStep (m : Option Nat) (c : Nat) : Option Nat :=
  match m with
  | none => some c
  | some m' => if c < m' then some c else some m'

/-- The candidate pool `pickBibsNext` draws from, given the minimum count. -/
def pickCandidates (names : List String) (s : Store) (m : Nat) : List String :=
  if ((names.filter (fun n => getBibsCount s n == m)).filter
      (fun n => some (normalizeNameKey n) != getLastWasherKey s)).length != 0
  then (names.filter (fun n => getBibsCount s n == m)).filter
      (fun n => some (normalizeNameKey n) != getLastWasherKey s)
  else names.filter (fun n => getBibsCount s n == m)

/-- One group's contribution to the signature: its sorted names joined with
`"|"` (the inner layer of `teamKey`). -/
def groupString (g : List String) : String := joinSep "|" (sortStrings g)

/-- No two adjacent bars — the key shape fact making the signature parseable. -/
def noDoubleBar (s : List Char) : Prop :=
  List.Chain' (fun a b => ¬(a = '|' ∧ b = '|')) s

/-- The character list does not end with a bar. -/
def lastNotBar (s : List Char) : Prop := s.getLast? ≠ some '|'

/-- Join character lists with a single bar (the character level of the inner
`join('|')`). -/
def joinChars : List (List Char) → List Char
  | [] => []
  | [s] => s
  | s :: rest => s ++ '|' :: joinChars rest

/-- Split a character list at every single bar — the decoder inverting
`joinChars` on bar-free pieces. -/
def split1 : List Char → List (List Char)
  | [] => [[]]
  | c :: rest =>
    if c = '|' then [] :: split1 rest
    else (c :: (split1 rest).headD []) :: (split1 rest).tail

/-- Read a character list up to the first double bar, returning the prefix
and the remainder past the separator (`none` when no double bar occurs) —
the decoder inverting the `join('||')` of `teamKey`. -/
def split2 : List Char → List Char × Option (List Char)
  | [] => ([], none)
  | [c] => ([c], none)
  | a :: b :: rest =>
    if a = '|' ∧ b = '|' then ([], some rest)
    else (a :: (split2 (b :: rest)).1, (split2 (b :: rest)).2)

/-! ## Store lemmas -/

theorem alookup_aset_self (l : List (String × Nat)) (k : String) (n : Nat) :
    alookup (aset l k n) k = some n := by
  induction l with
  | nil => simp [aset, alookup]
  | cons p rest ih =>
    obtain ⟨k', v⟩ := p
    by_cases h : k' = k <;> simp [aset, alookup, h, ih]

theorem alookup_aset_ne (l : List (String × Nat)) (k k' : String) (n : Nat)
    (h : k' ≠ k) : alookup (aset l k n) k' = alookup l k' := by
  induction l with
  | nil => simp [aset, alookup, Ne.symm h]
  | cons p rest ih =>
    obtain ⟨k₀, v⟩ := p
    by_cases h0 : k₀ = k
    · subst h0
      simp [aset, alookup, Ne.symm h]
    · by_cases h1 : k₀ = k' <;> simp [aset, alookup, h0, h1, ih, h]

theorem incBibsCount_eq (name : String) (s : Store) :
    incBibsCount name s =
      if s.lastWasher = some (normalizeNameKey name) then
        (storeCount s (normalizeNameKey name), s)
      else
        (storeCount s (normalizeNameKey name) + 1,
          ⟨aset s.counts (normalizeNameKey name) (storeCount s (normalizeNameKey name) + 1),
            some (normalizeNameKey name)⟩) := rfl

theorem inc_lastWasher (name : String) (s : Store) :
    ((incBibsCount name s).2).lastWasher = some (normalizeNameKey name) := by
  rw [incBibsCount_eq]
  split
  · next h => simpa using h
  · rfl

theorem inc_noop (name : String) (s : Store)
    (h : s.lastWasher = some (normalizeNameKey name)) :
    incBibsCount name s = (storeCount s (normalizeNameKey name), s) := by
  rw [incBibsCount_eq, if_pos h]

theorem inc_count_self (name : String) (s : Store)
    (h : s.lastWasher ≠ some (normalizeNameKey name)) :
    getBibsCount (incBibsCount name s).2 name = getBibsCount s name + 1 := by
  rw [getBibsCount, getBibsCount, incBibsCount_eq, if_neg h]
  simp [storeCount, alookup_aset_self]

theorem inc_count_other (name : String) (s : Store) (k : String)
    (h : s.lastWasher ≠ some (normalizeNameKey name))
    (hk : k ≠ normalizeNameKey name) :
    storeCount (incBibsCount name s).2 k = storeCount s k := by
  rw [incBibsCount_eq, if_neg h]
  simp [storeCount, alookup_aset_ne _ _ _ _ hk]

/-- C5 (amended).  `incBibsCount` is a no-op (no write at all) when the
name's normalized key equals the stored last-washer key; otherwise it
increments exactly that key's count and records the key, which in either
case ends up as the last-washer key.  Hence two consecutive calls with the
same name increment once (provided the key was not already the last washer,
e.g. from the empty store, giving "amrit" count 1 for two "Amrit" calls),
and X, Y, X performs three increments provided X's and Y's keys differ and
X's key was not already the last washer. -/
theorem C5_record_completion (s : Store) (name X Y : String) :
    (s.lastWasher = some (normalizeNameKey name) →
      incBibsCount name s = (storeCount s (normalizeNameKey name), s)) ∧
    (s.lastWasher ≠ some (normalizeNameKey name) →
      getBibsCount (incBibsCount name s).2 name = getBibsCount s name + 1 ∧
      (∀ k, k ≠ normalizeNameKey name →
        storeCount (incBibsCount name s).2 k = storeCount s k)) ∧
    ((incBibsCount name s).2.lastWasher = some (normalizeNameKey name)) ∧
    (s.lastWasher ≠ some (normalizeNameKey name) →
      getBibsCount (incBibsCount name (incBibsCount name s).2).2 name =
        getBibsCount s name + 1) ∧
    (getBibsCount (incBibsCount "Amrit" (incBibsCount "Amrit" emptyStore).2).2 "Amrit" = 1 ∧
      alookup (incBibsCount "Amrit" (incBibsCount "Amrit" emptyStore).2).2.counts "amrit" =
        some 1) ∧
    (normalizeNameKey X ≠ normalizeNameKey Y →
      s.lastWasher ≠ some (normalizeNameKey X) →
      getBibsCount (incBibsCount X (incBibsCount Y (incBibsCount X s).2).2).2 X =
        getBibsCount s X + 2 ∧
      getBibsCount (incBibsCount X (incBibsCount Y (incBibsCount X s).2).2).2 Y =
        getBibsCount s Y + 1) := by
  refine ⟨fun h => inc_noop name s h,
    fun h => ⟨inc_count_self name s h, fun k hk => inc_count_other name s k h hk⟩,
    inc_lastWasher name s, fun h => ?_, by decide, fun hXY hlast => ?_⟩
  · have h2 : ((incBibsCount name s).2).lastWasher = some (normalizeNameKey name) :=
      inc_lastWasher name s
    rw [inc_noop name (incBibsCount name s).2 h2]
    exact inc_count_self name s h
  · have s1last : ((incBibsCount X s).2).lastWasher = some (normalizeNameKey X) :=
      inc_lastWasher X s
    have hYX : ((incBibsCount X s).2).lastWasher ≠ some (normalizeNameKey Y) := by
      rw [s1last]
      simpa using hXY
    have s2last : ((incBibsCount Y (incBibsCount X s).2).2).lastWasher =
        some (normalizeNameKey Y) := inc_lastWasher Y (incBibsCount X s).2
    have hXY2 : ((incBibsCount Y (incBibsCount X s).2).2).lastWasher ≠
        some (normalizeNameKey X) := by
      rw [s2last]
      simpa using fun e => hXY e.symm
    constructor
    · rw [inc_count_self X _ hXY2]
      have : getBibsCount ((incBibsCount Y (incBibsCount X s).2).2) X =
          getBibsCount ((incBibsCount X s).2) X := by
        exact inc_count_other Y (incBibsCount X s).2 (normalizeNameKey X) hYX hXY
      rw [this, inc_count_self X s hlast]
    · have e1 : getBibsCount (incBibsCount X (incBibsCount Y (incBibsCount X s).2).2).2 Y =
          getBibsCount ((incBibsCount Y (incBibsCount X s).2).2) Y := by
        exact inc_count_other X (incBibsCount Y (incBibsCount X s).2).2
          (normalizeNameKey Y) hXY2 (fun e => hXY e.symm)
      rw [e1, inc_count_self Y _ hYX]
      have : getBibsCount ((incBibsCount X s).2) Y = getBibsCount s Y := by
        exact inc_count_other X s (normalizeNameKey Y) hlast (fun e => hXY e.symm)
      rw [this]

theorem C5_record_completion_witness :
    (emptyStore.lastWasher ≠ some (normalizeNameKey "Bob")) ∧
    getBibsCount (incBibsCount "Bob" (incBibsCount "Bob" emptyStore).2).2 "Bob" =
      getBibsCount emptyStore "Bob" + 1 ∧
    (normalizeNameKey "Alice" ≠ normalizeNameKey "Bob") ∧
    getBibsCount
      (incBibsCount "Alice" (incBibsCount "Bob" (incBibsCount "Alice" emptyStore).2).2).2
      "Alice" = getBibsCount emptyStore "Alice" + 2 := by
  refine ⟨by decide, ?_, by decide, ?_⟩
  · exact (C5_record_completion emptyStore "Bob" "Alice" "Bob").2.2.2.1 (by decide)
  · exact ((C5_record_completion emptyStore "Bob" "Alice" "Bob").2.2.2.2.2
      (by decide) (by decide)).1

/-- C5 counterexample to the claim as stated: from a store whose last-washer
key already equals "amrit", two consecutive `incBibsCount "Amrit"` calls
increment the count zero times, not exactly once. -/
theorem C5_counterexample :
    getBibsCount
        (incBibsCount "Amrit"
          (incBibsCount "Amrit" (⟨[("amrit", 3)], some "amrit"⟩ : Store)).2).2 "Amrit" = 3 ∧
    getBibsCount (⟨[("amrit", 3)], some "amrit"⟩ : Store) "Amrit" = 3 ∧
    getBibsCount
        (incBibsCount "Amrit"
          (incBibsCount "Amrit" (⟨[("amrit", 3)], some "amrit"⟩ : Store)).2).2 "Amrit" ≠
      getBibsCount (⟨[("amrit", 3)], some "amrit"⟩ : Store) "Amrit" + 1 := by
  decide

/-- C2 (amended).  The persisted duty store is updated by the text branch
only at the bibs-tag recording step, which runs *before* the 15-player
validation (for users already past the first-time tutorial gate): the
resulting store is exactly `recordBibsTags` of the submission's tags when
the gate is passed, recording is enabled and tags are present, and is
unchanged otherwise; a composition is produced exactly when the parsed
roster has 15 players. -/
theorem C2_store_update_before_validation (shown canRecord : Bool)
    (probe : ParsedRoster) (store : Store) :
    (handleTextRoster shown canRecord probe store).1 =
      (if (shown || probe.players.length == 15) &&
          (canRecord && probe.bibsTagged.length != 0)
        then recordBibsTags probe.bibsTagged store else store) ∧
    (handleTextRoster shown canRecord probe store).2 = (probe.players.length == 15) := by
  obtain ⟨mode, players, tags⟩ := probe
  cases mode <;> cases shown <;>
    by_cases h2 : players.length = 15 <;>
      simp [handleTextRoster, h2]

/-- C2 counterexample to the claim as stated: a rated-snake submission with
two players, one of them tagged `bibs`, is rejected (no composition), yet
the persisted duty store has been updated by the rejected submission. -/
theorem C2_atomicity_counterexample :
    handleTextRoster true true ⟨.snake, ["a", "b"], ["a"]⟩ emptyStore =
      ((⟨[("a", 1)], some "a"⟩ : Store), false) ∧
    (⟨[("a", 1)], some "a"⟩ : Store) ≠ emptyStore := by
  decide

/-! ## pickBibsNext characterization -/

theorem bibsFold_char (s : Store) :
    ∀ (names : List String) (m0 : Option Nat) (b0 : Nat → List String),
      (names.foldl (bibsStep s) (m0, b0)).1 =
        names.foldl (fun m n => minOptStep m (getBibsCount s n)) m0 ∧
      ∀ k, (names.foldl (bibsStep s) (m0, b0)).2 k =
        b0 k ++ names.filter (fun n => getBibsCount s n == k) := by
  intro names
  induction names with
  | nil => intro m0 b0; simp
  | cons n rest ih =>
    intro m0 b0
    have step_eq : bibsStep s (m0, b0) n =
        (minOptStep m0 (getBibsCount s n),
          fun k => if k = getBibsCount s n then b0 k ++ [n] else b0 k) := rfl
    rw [List.foldl_cons, List.foldl_cons, step_eq]
    refine ⟨(ih _ _).1, fun k => ?_⟩
    rw [(ih _ _).2 k]
    by_cases hk : k = getBibsCount s n
    · subst hk
      simp [List.filter_cons]
    · have : (getBibsCount s n == k) = false := by
        simpa using fun e => hk e.symm
      simp [List.filter_cons, this, hk]

theorem minOptStep_some (m c : Nat) : minOptStep (some m) c = some (min m c) := by
  simp only [minOptStep]
  rcases Nat.lt_or_ge c m with h | h
  · rw [if_pos h, Nat.min_def, if_neg (by omega)]
  · rw [if_neg (by omega), Nat.min_def, if_pos (by omega)]

theorem foldl_minOptStep_some (cs : List Nat) :
    ∀ m : Nat, cs.foldl minOptStep (some m) = some (cs.foldl min m) := by
  induction cs with
  | nil => intro m; rfl
  | cons c cs' ih =>
    intro m
    rw [List.foldl_cons, minOptStep_some, ih, List.foldl_cons]

theorem foldl_minOptStep_min? (cs : List Nat) :
    cs.foldl minOptStep none = cs.min? := by
  cases cs with
  | nil => rfl
  | cons c cs' =>
    rw [List.foldl_cons]
    show cs'.foldl minOptStep (some c) = some (cs'.foldl min c)
    exact foldl_minOptStep_some cs' c

theorem pickCandidates_subset (names : List String) (s : Store) (m : Nat) :
    pickCandidates names s m ⊆ names.filter (fun n => getBibsCount s n == m) := by
  unfold pickCandidates
  split
  · exact fun a ha => (List.mem_filter.1 ha).1
  · exact fun a ha => ha

theorem pickBibsNext_char (rand : Nat) (names : List String) (s : Store)
    (h : names ≠ []) :
    ∃ m, minCountOf s names = some m ∧
      pickCandidates names s m ≠ [] ∧
      pickBibsNext rand names s =
        (pickCandidates names s m).getD (rand % (pickCandidates names s m).length) "" ∧
      pickBibsNext rand names s ∈ pickCandidates names s m := by
  have hfold := bibsFold_char s names none (fun _ => [])
  have hfst : (names.foldl (bibsStep s) (none, fun _ => [])).1 = minCountOf s names := by
    rw [hfold.1, minCountOf, ← foldl_minOptStep_min?, List.foldl_map]
  obtain ⟨m, hm⟩ : ∃ m, minCountOf s names = some m := by
    rcases names with _ | ⟨n, rest⟩
    · exact absurd rfl h
    · exact ⟨_, rfl⟩
  have hMne : names.filter (fun n => getBibsCount s n == m) ≠ [] := by
    have hmineq : ∀ a b : Nat, min a b = a ∨ min a b = b := by
      intro a b
      rw [Nat.min_def]
      split
      · exact Or.inl rfl
      · exact Or.inr rfl
    have hmem : m ∈ names.map (getBibsCount s) := List.min?_mem hmineq hm
    obtain ⟨n, hn, hcn⟩ := List.mem_map.1 hmem
    intro hnil
    have := List.filter_eq_nil_iff.1 hnil n hn
    simp [hcn] at this
  have hcne : pickCandidates names s m ≠ [] := by
    unfold pickCandidates
    split
    · next hf =>
      intro hnil
      rw [hnil] at hf
      simp at hf
    · exact hMne
  have hbuck : (names.foldl (bibsStep s) (none, fun _ => [])).2 m =
      names.filter (fun n => getBibsCount s n == m) := by
    rw [hfold.2 m]
    rfl
  have hacc : (names.foldl (bibsStep s) (none, fun _ => [])).1 = some m := by
    rw [hfst, hm]
  have hres : pickBibsNext rand names s =
      (pickCandidates names s m).getD (rand % (pickCandidates names s m).length) "" := by
    simp only [pickBibsNext, hacc]
    rw [hbuck]
    rfl
  refine ⟨m, hm, hcne, hres, ?_⟩
  rw [hres]
  have hlen : 0 < (pickCandidates names s m).length := List.length_pos.2 hcne
  have hidx : rand % (pickCandidates names s m).length < (pickCandidates names s m).length :=
    Nat.mod_lt _ hlen
  rw [List.getD_eq_getElem _ _ hidx]
  exact List.getElem_mem hidx

/-- C6 (amended).  `pickBibsNext` always returns a member of the
minimum-count pool; whenever some minimum-count roster identifier's
normalized key differs from the last-washer key, the returned identifier's
key also differs from it (anti-repeat); and on Scenario D (counts a↦2, b↦2,
c↦3, last washer "a") it deterministically returns "B". -/
theorem C6_next_due (rand : Nat) (s : Store) (names : List String) (h : names ≠ []) :
    ∃ m, minCountOf s names = some m ∧
      pickBibsNext rand names s ∈ names.filter (fun n => getBibsCount s n == m) ∧
      ((∃ n ∈ names, getBibsCount s n = m ∧
          some (normalizeNameKey n) ≠ getLastWasherKey s) →
        some (normalizeNameKey (pickBibsNext rand names s)) ≠ getLastWasherKey s) ∧
      (∀ rand', pickBibsNext rand' ["A", "B", "C"]
          (⟨[("a", 2), ("b", 2), ("c", 3)], some "a"⟩ : Store) = "B") := by
  obtain ⟨m, hm, hcne, hres, hmem⟩ := pickBibsNext_char rand names s h
  refine ⟨m, hm, pickCandidates_subset names s m hmem, fun ⟨n, hn, hcn, hkey⟩ => ?_,
    fun rand' => ?_⟩
  · have hfil : n ∈ (names.filter (fun n => getBibsCount s n == m)).filter
        (fun n => some (normalizeNameKey n) != getLastWasherKey s) := by
      rw [List.mem_filter, List.mem_filter]
      exact ⟨⟨hn, by simp [hcn]⟩, by simpa using hkey⟩
    have hflne : ((names.filter (fun n => getBibsCount s n == m)).filter
        (fun n => some (normalizeNameKey n) != getLastWasherKey s)).length != 0 := by
      have := List.length_pos.2 (List.ne_nil_of_mem hfil)
      simpa using Nat.pos_iff_ne_zero.1 this
    have hcand : pickCandidates names s m =
        (names.filter (fun n => getBibsCount s n == m)).filter
          (fun n => some (normalizeNameKey n) != getLastWasherKey s) := by
      unfold pickCandidates
      rw [if_pos hflne]
    rw [hcand] at hmem
    simpa using (List.mem_filter.1 hmem).2
  · have : pickBibsNext rand' ["A", "B", "C"]
        (⟨[("a", 2), ("b", 2), ("c", 3)], some "a"⟩ : Store) =
        ["B"].getD (rand' % 1) "" := rfl
    rw [this, Nat.mod_one]
    rfl

theorem C6_next_due_witness :
    ∃ m, minCountOf (⟨[("a", 2), ("b", 2), ("c", 3)], some "a"⟩ : Store) ["A", "B", "C"] =
        some m ∧
      pickBibsNext 0 ["A", "B", "C"] (⟨[("a", 2), ("b", 2), ("c", 3)], some "a"⟩ : Store) ∈
        ["A", "B", "C"].filter
          (fun n =>
            getBibsCount (⟨[("a", 2), ("b", 2), ("c", 3)], some "a"⟩ : Store) n == m) ∧
      ((∃ n ∈ ["A", "B", "C"],
          getBibsCount (⟨[("a", 2), ("b", 2), ("c", 3)], some "a"⟩ : Store) n = m ∧
          some (normalizeNameKey n) ≠
            getLastWasherKey (⟨[("a", 2), ("b", 2), ("c", 3)], some "a"⟩ : Store)) →
        some (normalizeNameKey (pickBibsNext 0 ["A", "B", "C"]
            (⟨[("a", 2), ("b", 2), ("c", 3)], some "a"⟩ : Store))) ≠
          getLastWasherKey (⟨[("a", 2), ("b", 2), ("c", 3)], some "a"⟩ : Store)) ∧
      (∀ rand', pickBibsNext rand' ["A", "B", "C"]
          (⟨[("a", 2), ("b", 2), ("c", 3)], some "a"⟩ : Store) = "B") :=
  C6_next_due 0 (⟨[("a", 2), ("b", 2), ("c", 3)], some "a"⟩ : Store) ["A", "B", "C"]
    (by decide)

/-- C6 counterexample to the claim as stated: roster
`["Amrit", "AMRIT", "Bob"]` with counts `bob ↦ 5` and last washer `"amrit"`
has two identifiers at the minimum count 0, one of which (indeed both)
normalizes to the last-washer key — yet `pickBibsNext` returns an identifier
whose normalized key *is* the last-washer key. -/
theorem C6_anti_repeat_counterexample :
    pickBibsNext 0 ["Amrit", "AMRIT", "Bob"] (⟨[("bob", 5)], some "amrit"⟩ : Store) =
      "Amrit" ∧
    normalizeNameKey "Amrit" = "amrit" ∧
    normalizeNameKey "AMRIT" = "amrit" ∧
    getLastWasherKey (⟨[("bob", 5)], some "amrit"⟩ : Store) = some "amrit" ∧
    getBibsCount (⟨[("bob", 5)], some "amrit"⟩ : Store) "Amrit" = 0 ∧
    getBibsCount (⟨[("bob", 5)], some "amrit"⟩ : Store) "AMRIT" = 0 ∧
    getBibsCount (⟨[("bob", 5)], some "amrit"⟩ : Store) "Bob" = 5 := by
  decide

/-! ## C9: corrupt or absent store -/

theorem getBibsCount_empty (name : String) : getBibsCount emptyStore name = 0 := rfl

theorem minCountOf_empty (names : List String) (h : names ≠ []) :
    minCountOf emptyStore names = some 0 := by
  rcases names with _ | ⟨n, rest⟩
  · exact absurd rfl h
  · show some ((rest.map (getBibsCount emptyStore)).foldl Nat.min 0) = some 0
    congr 1
    induction rest with
    | nil => rfl
    | cons x xs ih => simpa using ih

/-- C9.  A missing, unreadable or non-object store file yields the empty
store; under the empty store every identifier's count is 0 and there is no
last-washer key, and `pickBibsNext` still returns a member of any non-empty
roster, chosen among *all* roster identifiers (uniform random fallback). -/
theorem C9_corrupt_store (parse : String → JsParse) (raw : String) (rand : Nat)
    (names : List String) :
    readStore .missing parse = emptyStore ∧
    readStore .ioError parse = emptyStore ∧
    ((∀ st, parse (if raw = "" then "\x7b\x7d" else raw) ≠ .obj st) →
      readStore (.content raw) parse = emptyStore) ∧
    (∀ name, getBibsCount emptyStore name = 0) ∧
    getLastWasherKey emptyStore = none ∧
    (names ≠ [] →
      pickBibsNext rand names emptyStore = names.getD (rand % names.length) "" ∧
      pickBibsNext rand names emptyStore ∈ names) := by
  refine ⟨rfl, rfl, ?_, fun _ => rfl, rfl, fun h => ?_⟩
  · intro hno
    rcases hp : parse (if raw = "" then "\x7b\x7d" else raw) with _ | _ | _ | st
    · simp only [readStore, hp]
    · simp only [readStore, hp]
    · simp only [readStore, hp]
    · exact absurd hp (hno st)
  · obtain ⟨m, hm, hcne, hres, hmem⟩ := pickBibsNext_char rand names emptyStore h
    have hm0 : m = 0 := by
      have := minCountOf_empty names h
      rw [hm] at this
      exact Option.some_inj.1 this
    subst hm0
    have hMall : names.filter (fun n => getBibsCount emptyStore n == 0) = names :=
      List.filter_eq_self.2 (fun a _ => by simp [getBibsCount_empty])
    have hcand : pickCandidates names emptyStore 0 = names := by
      unfold pickCandidates
      rw [hMall]
      have : names.filter
          (fun n => some (normalizeNameKey n) != getLastWasherKey emptyStore) = names :=
        List.filter_eq_self.2 (fun a _ => by simp [getLastWasherKey, emptyStore])
      rw [this]
      split <;> rfl
    rw [hcand] at hres hmem
    exact ⟨hres, hmem⟩

theorem C9_corrupt_store_witness :
    readStore .missing (fun _ => JsParse.throws) = emptyStore ∧
    readStore (.content "not json") (fun _ => JsParse.throws) = emptyStore ∧
    pickBibsNext 7 ["A", "B"] emptyStore ∈ ["A", "B"] := by
  have h := C9_corrupt_store (fun _ => JsParse.throws) "not json" 7 ["A", "B"]
  exact ⟨h.1, h.2.2.1 (fun st e => by cases e), (h.2.2.2.2.2 (by decide)).2⟩

/-! ## Fisher–Yates produces permutations -/

theorem set_cons_perm {α : Type} :
    ∀ (t : List α) (m : Nat) (hm : m < t.length) (c : α),
      List.Perm (t[m] :: t.set m c) (c :: t) := by
  intro t
  induction t with
  | nil => intro m hm; simp at hm
  | cons x t' ih =>
    intro m hm c
    cases m with
    | zero => simpa using List.Perm.swap c x t'
    | succ m' =>
      have hm' : m' < t'.length := by simpa using hm
      have e1 : (x :: t')[m' + 1] = t'[m'] := rfl
      have e2 : (x :: t').set (m' + 1) c = x :: t'.set m' c := rfl
      rw [e1, e2]
      exact ((List.Perm.swap x t'[m'] _).trans ((ih m' hm' c).cons x)).trans
        (List.Perm.swap c x t')

theorem set_set_perm {α : Type} :
    ∀ (l : List α) (i j : Nat) (hi : i < l.length) (hj : j < l.length),
      List.Perm ((l.set i l[j]).set j l[i]) l := by
  intro l
  induction l with
  | nil => intro i j hi _; simp at hi
  | cons c t ih =>
    intro i j hi hj
    cases i with
    | zero =>
      cases j with
      | zero => simp
      | succ m =>
        have hm : m < t.length := by simpa using hj
        have e : (((c :: t).set 0 (c :: t)[m + 1]).set (m + 1) (c :: t)[0]) =
            t[m] :: t.set m c := rfl
        rw [e]
        exact set_cons_perm t m hm c
    | succ k =>
      cases j with
      | zero =>
        have hk : k < t.length := by simpa using hi
        have e : (((c :: t).set (k + 1) (c :: t)[0]).set 0 (c :: t)[k + 1]) =
            t[k] :: t.set k c := rfl
        rw [e]
        exact set_cons_perm t k hk c
      | succ m =>
        have hk : k < t.length := by simpa using hi
        have hm : m < t.length := by simpa using hj
        have e : (((c :: t).set (k + 1) (c :: t)[m + 1]).set (m + 1) (c :: t)[k + 1]) =
            c :: ((t.set k t[m]).set m t[k]) := rfl
        rw [e]
        exact (ih k m hk hm).cons c

theorem jsSwap_perm {α : Type} (l : List α) (i j : Nat) : List.Perm (jsSwap l i j) l := by
  unfold jsSwap
  split
  · next a b hi hj =>
    obtain ⟨hi', rfl⟩ := List.getElem?_eq_some_iff.1 hi
    obtain ⟨hj', rfl⟩ := List.getElem?_eq_some_iff.1 hj
    exact set_set_perm l i j hi' hj'
  · exact List.Perm.refl l

theorem fyAux_perm {α : Type} (rand : Nat → Nat) :
    ∀ (n : Nat) (l : List α), List.Perm (fyAux rand n l) l := by
  intro n
  induction n with
  | zero => intro l; exact List.Perm.refl l
  | succ i ih =>
    intro l
    exact (ih _).trans (jsSwap_perm l (i + 1) (rand (i + 1) % (i + 2)))

theorem jsShuffle_perm {α : Type} (rand : Nat → Nat) (l : List α) :
    List.Perm (jsShuffle rand l) l :=
  fyAux_perm rand (l.length - 1) l

/-! ## Slicing a 15-element list into a valid composition -/

theorem perm_isValidComposition (g0 g1 g2 : List String) (players : List String)
    (h0 : g0.length = 5) (h1 : g1.length = 5) (h2 : g2.length = 5)
    (hperm : List.Perm (g0 ++ g1 ++ g2) players) (hnd : players.Nodup) :
    isValidComposition [g0, g1, g2] players := by
  have hflat : ([g0, g1, g2] : List (List String)).flatten = g0 ++ g1 ++ g2 := by
    simp
  have hfl : List.Perm ([g0, g1, g2] : List (List String)).flatten players := by
    rw [hflat]; exact hperm
  have hndf : ([g0, g1, g2] : List (List String)).flatten.Nodup :=
    (hfl.nodup_iff).2 hnd
  refine ⟨by simp [h0, h1, h2], ?_, fun x => hfl.mem_iff, hndf⟩
  have hnd' : (g0 ++ g1 ++ g2).Nodup := by rw [← hflat]; exact hndf
  rw [List.append_assoc] at hnd'
  rw [List.nodup_append] at hnd'
  obtain ⟨hn0, hn12, hd0⟩ := hnd'
  rw [List.nodup_append] at hn12
  obtain ⟨hn1, hn2, hd12⟩ := hn12
  refine List.Pairwise.cons ?_ (List.Pairwise.cons ?_
    (List.Pairwise.cons (fun g hg => by cases hg) List.Pairwise.nil))
  · intro g hg
    rcases List.mem_cons.1 hg with rfl | hg
    · exact fun a ha hb => hd0 ha (List.mem_append_left _ hb)
    · rcases List.mem_cons.1 hg with rfl | hg
      · exact fun a ha hb => hd0 ha (List.mem_append_right _ hb)
      · exact absurd hg (List.not_mem_nil g)
  · intro g hg
    rcases List.mem_cons.1 hg with rfl | hg
    · exact hd12
    · exact absurd hg (List.not_mem_nil g)

theorem slices_append (s : List String) (h : s.length = 15) :
    s.take 5 ++ (s.drop 5).take 5 ++ (s.drop 10).take 5 = s := by
  have h10 : (s.drop 10).length = 5 := by simp [h]
  have e10 : (s.drop 10).take 5 = s.drop 10 := List.take_of_length_le (by rw [h10])
  rw [List.append_assoc, e10]
  have e5 : (s.drop 5).take 5 ++ s.drop 10 = s.drop 5 := by
    have : s.drop 10 = (s.drop 5).drop 5 := by
      rw [List.drop_drop]
    rw [this, List.take_append_drop]
  rw [e5, List.take_append_drop]

theorem makeTeamsRandom_valid (rand : Nat → Nat) (players : List String)
    (h15 : players.length = 15) (hnd : players.Nodup) :
    isValidComposition (makeTeamsRandom rand players) players := by
  have hp : List.Perm (jsShuffle rand players) players := jsShuffle_perm rand players
  have hl : (jsShuffle rand players).length = 15 := by rw [hp.length_eq, h15]
  show isValidComposition
    [(jsShuffle rand players).take 5, ((jsShuffle rand players).drop 5).take 5,
      ((jsShuffle rand players).drop 10).take 5] players
  refine perm_isValidComposition _ _ _ _ (by simp [hl]) (by simp [hl]) (by simp [hl])
    ?_ hnd
  rw [slices_append _ hl]
  exact hp

/-! ## makeThreeTeamsOfFive -/

theorem jsDedupAux_eq : ∀ (l seen : List String), l.Nodup →
    (∀ x ∈ l, x ∉ seen) → jsDedupAux seen l = l := by
  intro l
  induction l with
  | nil => intro seen _ _; rfl
  | cons x xs ih =>
    intro seen hnd hseen
    have hx : seen.contains x = false := by
      simpa using hseen x (by simp)
    have hrec : jsDedupAux (x :: seen) xs = xs := by
      refine ih (x :: seen) (List.Nodup.of_cons hnd) (fun y hy => ?_)
      intro hmem
      rcases List.mem_cons.1 hmem with rfl | hmem
      · exact (List.nodup_cons.1 hnd).1 hy
      · exact hseen y (List.mem_cons_of_mem x hy) hmem
    show (if seen.contains x = true then jsDedupAux seen xs
      else x :: jsDedupAux (x :: seen) xs) = x :: xs
    rw [hx, hrec]
    simp

theorem makeThreeTeamsOfFive_ok (rand : Nat → Nat) (players : List String)
    (h15 : players.length = 15) (hnd : players.Nodup)
    (htrim : ∀ n ∈ players, jsTrim n = n ∧ n ≠ "") :
    makeThreeTeamsOfFive rand players =
      .ok [(jsShuffle rand players).take 5, ((jsShuffle rand players).drop 5).take 5,
        ((jsShuffle rand players).drop 10).take 5] := by
  have hmap : players.map jsTrim = players := by
    have : players.map jsTrim = players.map id :=
      List.map_congr_left (fun n hn => (htrim n hn).1)
    rw [this, List.map_id]
  have hfil : players.filter (fun s => s != "") = players :=
    List.filter_eq_self.2 (fun a ha => by simpa using (htrim a ha).2)
  have hded : jsDedup players = players :=
    jsDedupAux_eq players [] hnd (fun x _ => List.not_mem_nil x)
  simp only [makeThreeTeamsOfFive, hmap, hfil, hded, h15]
  rfl

/-! ## Snake order and assignment characterization -/

theorem buildSnakeOrder_eq (st : Nat) (rev : Bool) :
    buildSnakeOrder st rev = (List.range 15).map (snakeGroupOfIndex st rev) := by
  cases rev <;> rfl

theorem snakeGroupOfIndex_lt (st : Nat) (rev : Bool) (i : Nat) :
    snakeGroupOfIndex st rev i < 3 := by
  unfold snakeGroupOfIndex
  exact Nat.mod_lt _ (by norm_num)

theorem snakeGroupOfIndex_mod (st : Nat) (rev : Bool) (i : Nat) :
    snakeGroupOfIndex st rev i = snakeGroupOfIndex (st % 3) rev i := by
  have h : ∀ t : Nat, (t + st) % 3 = (t + st % 3) % 3 := fun t => by omega
  exact h _

theorem buildSnakeOrder_getD_eq (st : Nat) (rev : Bool) (i : Nat) (h : i < 15) :
    (buildSnakeOrder st rev).getD i 0 = snakeGroupOfIndex st rev i := by
  rw [buildSnakeOrder_eq, List.getD_eq_getElem _ _ (by simpa using h)]
  simp

theorem buildSnakeOrder_getD_lt (st : Nat) (rev : Bool) (i : Nat) :
    (buildSnakeOrder st rev).getD i 0 < 3 := by
  by_cases h : i < 15
  · rw [buildSnakeOrder_getD_eq st rev i h]
    exact snakeGroupOfIndex_lt st rev i
  · have hle : (15 : Nat) ≤ i := Nat.le_of_not_lt h
    rw [buildSnakeOrder_eq, List.getD_eq_default _ _ (by simpa using hle)]
    norm_num

theorem pushAt_getD (out : List (List String)) (g : Nat) (x : String) (k : Nat)
    (hg : g < out.length) :
    (pushAt out g x).getD k [] =
      if k = g then out.getD k [] ++ [x] else out.getD k [] := by
  unfold pushAt
  by_cases hk : k = g
  · subst hk
    rw [if_pos rfl]
    simp only [List.getD_eq_getElem?_getD, List.getElem?_set_self hg]
    rw [List.getElem?_eq_getElem hg]
    rfl
  · rw [if_neg hk]
    simp only [List.getD_eq_getElem?_getD, List.getElem?_set_ne (fun e => hk e.symm)]

theorem foldl_pushAt_length (f : Nat → Nat) (g : Nat → String) :
    ∀ (idxs : List Nat) (out : List (List String)),
      (idxs.foldl (fun out i => pushAt out (f i) (g i)) out).length = out.length := by
  intro idxs
  induction idxs with
  | nil => intro out; rfl
  | cons i is ih =>
    intro out
    rw [List.foldl_cons, ih]
    simp [pushAt]

theorem foldl_pushAt_getD (f : Nat → Nat) (g : Nat → String) (hf : ∀ i, f i < 3) :
    ∀ (idxs : List Nat) (out : List (List String)), out.length = 3 → ∀ k,
      (idxs.foldl (fun out i => pushAt out (f i) (g i)) out).getD k [] =
        out.getD k [] ++ (idxs.filter (fun i => f i == k)).map g := by
  intro idxs
  induction idxs with
  | nil => intro out _ k; simp
  | cons i is ih =>
    intro out hlen k
    rw [List.foldl_cons]
    have hlen' : (pushAt out (f i) (g i)).length = 3 := by
      simp [pushAt, hlen]
    rw [ih (pushAt out (f i) (g i)) hlen' k,
      pushAt_getD out (f i) (g i) k (by rw [hlen]; exact hf i)]
    by_cases hk : f i = k
    · have hb : (f i == k) = true := by simpa using hk
      rw [if_pos hk.symm]
      simp [List.filter_cons, hb, List.append_assoc]
    · have hb : (f i == k) = false := by simpa using hk
      rw [if_neg (fun e => hk e.symm)]
      simp [List.filter_cons, hb]

theorem makeTeamsSnake_getD (names : List String) (st : Nat) (rev : Bool) (k : Nat) :
    (makeTeamsSnakeWithOrder names st rev).getD k [] =
      ((List.range 15).filter (fun i => snakeGroupOfIndex st rev i == k)).map
        (fun i => names.getD i "") := by
  have h := foldl_pushAt_getD (fun i => (buildSnakeOrder st rev).getD i 0)
    (fun i => names.getD i "") (buildSnakeOrder_getD_lt st rev)
    (List.range 15) [[], [], []] rfl k
  have hcong : (List.range 15).filter
      (fun i => (buildSnakeOrder st rev).getD i 0 == k) =
      (List.range 15).filter (fun i => snakeGroupOfIndex st rev i == k) :=
    List.filter_congr (fun i hi => by
      rw [buildSnakeOrder_getD_eq st rev i (List.mem_range.1 hi)])
  have hinit : ∀ k', ([[], [], []] : List (List String)).getD k' [] = [] := by
    intro k'
    rcases k' with _ | _ | _ | k' <;> rfl
  show ((List.range 15).foldl
      (fun out i => pushAt out ((buildSnakeOrder st rev).getD i 0) (names.getD i ""))
      [[], [], []]).getD k [] = _
  rw [h, hcong, hinit]
  rfl

theorem makeTeamsSnake_length (names : List String) (st : Nat) (rev : Bool) :
    (makeTeamsSnakeWithOrder names st rev).length = 3 := by
  show ((List.range 15).foldl
      (fun out i => pushAt out ((buildSnakeOrder st rev).getD i 0) (names.getD i ""))
      [[], [], []]).length = 3
  rw [foldl_pushAt_length]
  rfl

theorem exists_three (l : List (List String)) (h : l.length = 3) :
    ∃ a b c, l = [a, b, c] := by
  rcases l with _ | ⟨a, l⟩
  · simp at h
  rcases l with _ | ⟨b, l⟩
  · simp at h
  rcases l with _ | ⟨c, l⟩
  · simp at h
  rcases l with _ | ⟨d, l⟩
  · exact ⟨a, b, c, rfl⟩
  · simp at h

theorem map_getD_range (l : List String) :
    (List.range l.length).map (fun i => l.getD i "") = l := by
  induction l with
  | nil => rfl
  | cons x xs ih =>
    show (List.range (xs.length + 1)).map (fun i => (x :: xs).getD i "") = x :: xs
    rw [List.range_succ_eq_map, List.map_cons]
    show x :: ((List.range xs.length).map Nat.succ).map (fun i => (x :: xs).getD i "") =
      x :: xs
    rw [List.map_map]
    have h2 : (List.range xs.length).map ((fun i => (x :: xs).getD i "") ∘ Nat.succ) =
        (List.range xs.length).map (fun i => xs.getD i "") :=
      List.map_congr_left (fun i _ => rfl)
    rw [h2, ih]

theorem snake_filter_length (st : Nat) (rev : Bool) (k : Nat) (hk : k < 3) :
    ((List.range 15).filter (fun i => snakeGroupOfIndex st rev i == k)).length = 5 := by
  have hcong : (List.range 15).filter (fun i => snakeGroupOfIndex st rev i == k) =
      (List.range 15).filter (fun i => snakeGroupOfIndex (st % 3) rev i == k) :=
    List.filter_congr (fun i _ => by rw [snakeGroupOfIndex_mod])
  rw [hcong]
  have h3 : st % 3 < 3 := Nat.mod_lt _ (by norm_num)
  rcases e : st % 3 with _ | _ | _ | n
  · rcases ek : k with _ | _ | _ | m
    · cases rev <;> decide
    · cases rev <;> decide
    · cases rev <;> decide
    · omega
  · rcases ek : k with _ | _ | _ | m
    · cases rev <;> decide
    · cases rev <;> decide
    · cases rev <;> decide
    · omega
  · rcases ek : k with _ | _ | _ | m
    · cases rev <;> decide
    · cases rev <;> decide
    · cases rev <;> decide
    · omega
  · omega

theorem snake_filters_perm (st : Nat) (rev : Bool) :
    List.Perm
      ((List.range 15).filter (fun i => snakeGroupOfIndex st rev i == 0) ++
        ((List.range 15).filter (fun i => snakeGroupOfIndex st rev i == 1) ++
          (List.range 15).filter (fun i => snakeGroupOfIndex st rev i == 2)))
      (List.range 15) := by
  have h0 := List.filter_append_perm (fun i => snakeGroupOfIndex st rev i == 0)
    (List.range 15)
  have h1 := List.filter_append_perm (fun i => snakeGroupOfIndex st rev i == 1)
    ((List.range 15).filter (fun i => !(snakeGroupOfIndex st rev i == 0)))
  have e1 : ((List.range 15).filter
      (fun i => !(snakeGroupOfIndex st rev i == 0))).filter
      (fun i => snakeGroupOfIndex st rev i == 1) =
      (List.range 15).filter (fun i => snakeGroupOfIndex st rev i == 1) := by
    rw [List.filter_filter]
    refine List.filter_congr (fun i _ => ?_)
    rcases e : snakeGroupOfIndex st rev i with _ | _ | _ | n <;> rfl
  have e2 : ((List.range 15).filter
      (fun i => !(snakeGroupOfIndex st rev i == 0))).filter
      (fun i => !(snakeGroupOfIndex st rev i == 1)) =
      (List.range 15).filter (fun i => snakeGroupOfIndex st rev i == 2) := by
    rw [List.filter_filter]
    refine List.filter_congr (fun i _ => ?_)
    have h3 := snakeGroupOfIndex_lt st rev i
    rcases e : snakeGroupOfIndex st rev i with _ | _ | _ | n
    · rfl
    · rfl
    · rfl
    · rw [e] at h3; omega
  rw [e1, e2] at h1
  exact (List.Perm.append_left _ h1).trans h0

theorem makeTeamsSnake_valid (names : List String) (st : Nat) (rev : Bool)
    (h15 : names.length = 15) (hnd : names.Nodup) :
    isValidComposition (makeTeamsSnakeWithOrder names st rev) names := by
  obtain ⟨a, b, c, habc⟩ := exists_three _ (makeTeamsSnake_length names st rev)
  have ha : a = ((List.range 15).filter (fun i => snakeGroupOfIndex st rev i == 0)).map
      (fun i => names.getD i "") := by
    rw [← makeTeamsSnake_getD names st rev 0, habc]
    rfl
  have hb : b = ((List.range 15).filter (fun i => snakeGroupOfIndex st rev i == 1)).map
      (fun i => names.getD i "") := by
    rw [← makeTeamsSnake_getD names st rev 1, habc]
    rfl
  have hc : c = ((List.range 15).filter (fun i => snakeGroupOfIndex st rev i == 2)).map
      (fun i => names.getD i "") := by
    rw [← makeTeamsSnake_getD names st rev 2, habc]
    rfl
  rw [habc]
  refine perm_isValidComposition a b c names ?_ ?_ ?_ ?_ hnd
  · rw [ha, List.length_map, snake_filter_length st rev 0 (by norm_num)]
  · rw [hb, List.length_map, snake_filter_length st rev 1 (by norm_num)]
  · rw [hc, List.length_map, snake_filter_length st rev 2 (by norm_num)]
  · rw [ha, hb, hc, List.append_assoc, ← List.map_append, ← List.map_append]
    have hp := (snake_filters_perm st rev).map (fun i => names.getD i "")
    refine hp.trans ?_
    rw [← h15, map_getD_range]

/-- C3.  The snake assignment rule: `buildSnakeOrder` is exactly the spec's
per-index group formula; consequently group `g` of
`makeTeamsSnakeWithOrder` holds precisely the identifiers whose index maps
to `g` under that formula, in index order, so the `i`-th identifier lands in
group `snakeGroupOfIndex startTeam rev i`.  The construction involves no
randomness (the embedding takes no random oracle), so the six candidates
enumerated by `bestBalancedSnakeForOrder` coincide across repeated calls on
the same ordering and weights. -/
theorem C3_snake_rule_deterministic (startTeam : Nat) (rev : Bool)
    (names : List String) (rm : String → Rat) :
    buildSnakeOrder startTeam rev = (List.range 15).map (snakeGroupOfIndex startTeam rev) ∧
    (∀ g, (makeTeamsSnakeWithOrder names startTeam rev).getD g [] =
      ((List.range 15).filter (fun i => snakeGroupOfIndex startTeam rev i == g)).map
        (fun i => names.getD i "")) ∧
    (∀ i, i < 15 → names.getD i "" ∈
      (makeTeamsSnakeWithOrder names startTeam rev).getD
        (snakeGroupOfIndex startTeam rev i) []) ∧
    snakeCandidates names rm = snakeCandidates names rm := by
  refine ⟨buildSnakeOrder_eq startTeam rev, makeTeamsSnake_getD names startTeam rev,
    fun i hi => ?_, rfl⟩
  rw [makeTeamsSnake_getD names startTeam rev]
  exact List.mem_map.2 ⟨i, List.mem_filter.2 ⟨List.mem_range.2 hi, by simp⟩, rfl⟩

theorem C3_snake_rule_deterministic_witness :
    buildSnakeOrder 2 true = (List.range 15).map (snakeGroupOfIndex 2 true) ∧
    ("g" : String) ∈
      (makeTeamsSnakeWithOrder ["a", "b", "c", "d", "e", "f", "g", "h", "i", "j", "k",
        "l", "m", "n", "o"] 2 true).getD (snakeGroupOfIndex 2 true 6) [] := by
  have h := C3_snake_rule_deterministic 2 true
    ["a", "b", "c", "d", "e", "f", "g", "h", "i", "j", "k", "l", "m", "n", "o"]
    (fun _ => 0)
  exact ⟨h.1, h.2.2.1 6 (by decide)⟩

/-- C1 (amended).  For every roster of 15 distinct identifiers, each free of
leading/trailing whitespace and non-empty, every produced composition — by
`makeTeamsRandom` for any shuffle oracle, by `makeTeamsSnakeWithOrder` for
any start team (in particular 0, 1, 2) and either direction flag, and by
`makeThreeTeamsOfFive` (which succeeds) — consists of three pairwise
disjoint groups of exactly 5 identifiers whose union is exactly the input
set, with no duplicates. -/
theorem C1_partition_completeness (players : List String) (rand : Nat → Nat)
    (startTeam : Nat) (rev : Bool) (h15 : players.length = 15) (hnd : players.Nodup)
    (htrim : ∀ n ∈ players, jsTrim n = n ∧ n ≠ "") :
    isValidComposition (makeTeamsRandom rand players) players ∧
    isValidComposition (makeTeamsSnakeWithOrder players startTeam rev) players ∧
    ∃ teams, makeThreeTeamsOfFive rand players = .ok teams ∧
      isValidComposition teams players := by
  refine ⟨makeTeamsRandom_valid rand players h15 hnd,
    makeTeamsSnake_valid players startTeam rev h15 hnd,
    ⟨_, makeThreeTeamsOfFive_ok rand players h15 hnd htrim, ?_⟩⟩
  exact makeTeamsRandom_valid rand players h15 hnd

theorem C1_partition_completeness_witness :
    isValidComposition
      (makeTeamsRandom (fun _ => 1)
        ["a", "b", "c", "d", "e", "f", "g", "h", "i", "j", "k", "l", "m", "n", "o"])
      ["a", "b", "c", "d", "e", "f", "g", "h", "i", "j", "k", "l", "m", "n", "o"] ∧
    isValidComposition
      (makeTeamsSnakeWithOrder
        ["a", "b", "c", "d", "e", "f", "g", "h", "i", "j", "k", "l", "m", "n", "o"] 1 true)
      ["a", "b", "c", "d", "e", "f", "g", "h", "i", "j", "k", "l", "m", "n", "o"] ∧
    ∃ teams, makeThreeTeamsOfFive (fun _ => 1)
        ["a", "b", "c", "d", "e", "f", "g", "h", "i", "j", "k", "l", "m", "n", "o"] =
        .ok teams ∧
      isValidComposition teams
        ["a", "b", "c", "d", "e", "f", "g", "h", "i", "j", "k", "l", "m", "n", "o"] :=
  C1_partition_completeness
    ["a", "b", "c", "d", "e", "f", "g", "h", "i", "j", "k", "l", "m", "n", "o"]
    (fun _ => 1) 1 true (by decide) (by decide) (by decide)

/-- C1 counterexample to the claim as stated: `makeThreeTeamsOfFive` trims
identifiers, so on a roster of 15 distinct identifiers one of which carries
a leading space it succeeds with a composition whose union contains the
trimmed form `"a"` but not the input identifier `" a"` — the union is not
the input set. -/
theorem C1_trim_counterexample :
    makeThreeTeamsOfFive (fun _ => 0)
        [" a", "b", "c", "d", "e", "f", "g", "h", "i", "j", "k", "l", "m", "n", "o"] =
      .ok [["b", "c", "d", "e", "f"], ["g", "h", "i", "j", "k"],
        ["l", "m", "n", "o", "a"]] ∧
    " a" ∉ ([["b", "c", "d", "e", "f"], ["g", "h", "i", "j", "k"],
      ["l", "m", "n", "o", "a"]] : List (List String)).flatten ∧
    " a" ∈ ([" a", "b", "c", "d", "e", "f", "g", "h", "i", "j", "k", "l", "m", "n",
      "o"] : List String) ∧
    ([" a", "b", "c", "d", "e", "f", "g", "h", "i", "j", "k", "l", "m", "n",
      "o"] : List String).length = 15 ∧
    ([" a", "b", "c", "d", "e", "f", "g", "h", "i", "j", "k", "l", "m", "n",
      "o"] : List String).Nodup := by
  exact ⟨rfl, by decide, by decide, by decide, by decide⟩

/-! ## Selection: lexicographic order on balance scores -/

theorem candLexLe_refl (a : Cand) : candLexLe a a := Or.inr ⟨rfl, le_refl _⟩

theorem candBetter_iff (c b : Cand) : candBetter c b = true ↔ candLexLt c b := by
  simp [candBetter, candLexLt]

theorem not_candLexLt_iff (c b : Cand) : ¬ candLexLt c b ↔ candLexLe b c := by
  unfold candLexLt candLexLe
  constructor
  · intro h
    rcases lt_trichotomy b.spread c.spread with h1 | h1 | h1
    · exact Or.inl h1
    · refine Or.inr ⟨h1, ?_⟩
      rcases le_or_lt b.variance c.variance with h2 | h2
      · exact h2
      · exact absurd (Or.inr ⟨h1.symm, h2⟩) h
    · exact absurd (Or.inl h1) h
  · intro h hlt
    rcases h with h1 | ⟨h1, h2⟩
    · rcases hlt with h3 | ⟨h3, _⟩
      · exact absurd (h3.trans h1) (lt_irrefl _)
      · rw [h3] at h1
        exact absurd h1 (lt_irrefl _)
    · rcases hlt with h3 | ⟨h3, h4⟩
      · rw [h1] at h3
        exact absurd h3 (lt_irrefl _)
      · exact absurd (h4.trans_le h2) (lt_irrefl _)

theorem candBetter_false_iff (c b : Cand) : candBetter c b = false ↔ candLexLe b c := by
  rw [← not_candLexLt_iff, ← candBetter_iff]
  simp

theorem candLexLe_trans {a b c : Cand} (h1 : candLexLe a b) (h2 : candLexLe b c) :
    candLexLe a c := by
  rcases h1 with h1 | ⟨h1, h1'⟩
  · rcases h2 with h2 | ⟨h2, h2'⟩
    · exact Or.inl (h1.trans h2)
    · exact Or.inl (h2 ▸ h1)
  · rcases h2 with h2 | ⟨h2, h2'⟩
    · exact Or.inl (h1 ▸ h2)
    · exact Or.inr ⟨h1.trans h2, h1'.trans h2'⟩

theorem candLexLt_of_le_of_lt {a b c : Cand} (h1 : candLexLe a b) (h2 : candLexLt b c) :
    candLexLt a c := by
  rcases h1 with h1 | ⟨h1, h1'⟩
  · rcases h2 with h2 | ⟨h2, h2'⟩
    · exact Or.inl (h1.trans h2)
    · exact Or.inl (h2 ▸ h1)
  · rcases h2 with h2 | ⟨h2, h2'⟩
    · exact Or.inl (h1 ▸ h2)
    · exact Or.inr ⟨h1.trans h2, h1'.trans_lt h2'⟩

theorem candLexLt_of_lt_of_le {a b c : Cand} (h1 : candLexLt a b) (h2 : candLexLe b c) :
    candLexLt a c := by
  rcases h1 with h1 | ⟨h1, h1'⟩
  · rcases h2 with h2 | ⟨h2, h2'⟩
    · exact Or.inl (h1.trans h2)
    · exact Or.inl (h2 ▸ h1)
  · rcases h2 with h2 | ⟨h2, h2'⟩
    · exact Or.inl (h1 ▸ h2)
    · exact Or.inr ⟨h1.trans h2, h1'.trans_le h2'⟩

theorem candLexLe_of_lt {a b : Cand} (h : candLexLt a b) : candLexLe a b := by
  rcases h with h | ⟨h, h'⟩
  · exact Or.inl h
  · exact Or.inr ⟨h, le_of_lt h'⟩

theorem selFold_spec :
    ∀ (l : List Cand) (b : Cand),
      ∃ r, l.foldl
          (fun best cand =>
            match best with
            | none => some cand
            | some b => if candBetter cand b then some cand else some b)
          (some b) = some r ∧
        candLexLe r b ∧ (∀ c ∈ l, candLexLe r c) ∧
        ∃ pre suf, b :: l = pre ++ r :: suf ∧ ∀ c ∈ pre, candLexLt r c := by
  intro l
  induction l with
  | nil =>
    intro b
    exact ⟨b, rfl, candLexLe_refl b, by simp, [], [], rfl, by simp⟩
  | cons c rest ih =>
    intro b
    by_cases hcb : candBetter c b = true
    · obtain ⟨r, hr, hrc, hall, pre, suf, hsplit, hpre⟩ := ih c
      have hcltb : candLexLt c b := (candBetter_iff c b).1 hcb
      have hrb : candLexLt r b := candLexLt_of_le_of_lt hrc hcltb
      refine ⟨r, ?_, candLexLe_of_lt hrb, ?_, b :: pre, suf, ?_, ?_⟩
      · rw [List.foldl_cons]
        show rest.foldl _ (if candBetter c b then some c else some b) = some r
        rw [if_pos hcb]
        exact hr
      · intro x hx
        rcases List.mem_cons.1 hx with rfl | hx
        · exact hrc
        · exact hall x hx
      · rw [List.cons_append, ← hsplit]
      · intro x hx
        rcases List.mem_cons.1 hx with rfl | hx
        · exact hrb
        · exact hpre x hx
    · have hcb' : candBetter c b = false := by
        simpa using hcb
      have hbc : candLexLe b c := (candBetter_false_iff c b).1 hcb'
      obtain ⟨r, hr, hrb, hall, pre, suf, hsplit, hpre⟩ := ih b
      have hfold : (c :: rest).foldl
          (fun best cand =>
            match best with
            | none => some cand
            | some b => if candBetter cand b then some cand else some b)
          (some b) = some r := by
        rw [List.foldl_cons]
        show rest.foldl _ (if candBetter c b then some c else some b) = some r
        rw [if_neg (by simp [hcb'])]
        exact hr
      rcases pre with _ | ⟨p, pre'⟩
      · simp only [List.nil_append] at hsplit
        obtain ⟨hbr, hrs⟩ := List.cons.inj hsplit
        refine ⟨r, hfold, hrb, ?_, [], c :: rest, by rw [← hbr]; rfl, by simp⟩
        intro x hx
        rcases List.mem_cons.1 hx with rfl | hx
        · exact candLexLe_trans hrb hbc
        · exact hall x hx
      · simp only [List.cons_append] at hsplit
        obtain ⟨hbp, hrest⟩ := List.cons.inj hsplit
        have hrp : candLexLt r p := hpre p (by simp)
        have hrblt : candLexLt r b := by
          rw [hbp]
          exact hrp
        refine ⟨r, hfold, hrb, ?_, b :: c :: pre', suf, ?_, ?_⟩
        · intro x hx
          rcases List.mem_cons.1 hx with rfl | hx
          · exact candLexLe_trans hrb hbc
          · exact hall x hx
        · simp only [List.cons_append]
          rw [hrest]
        · intro x hx
          rcases List.mem_cons.1 hx with rfl | hx
          · exact hrblt
          · rcases List.mem_cons.1 hx with rfl | hx
            · exact candLexLt_of_lt_of_le hrblt hbc
            · exact hpre x (List.mem_cons_of_mem p hx)

theorem bestBalanced_spec (names : List String) (rm : String → Rat) :
    ∃ best, bestBalancedSnakeForOrder names rm = some best ∧
      best ∈ snakeCandidates names rm ∧
      (∀ c ∈ snakeCandidates names rm, candLexLe best c) ∧
      ∃ pre suf, snakeCandidates names rm = pre ++ best :: suf ∧
        ∀ c ∈ pre, candLexLt best c := by
  obtain ⟨r, hr, hrb, hall, pre, suf, hsplit, hpre⟩ :=
    selFold_spec
      [mkCand names rm 0 true, mkCand names rm 1 false, mkCand names rm 1 true,
        mkCand names rm 2 false, mkCand names rm 2 true]
      (mkCand names rm 0 false)
  have hcands : snakeCandidates names rm =
      mkCand names rm 0 false :: [mkCand names rm 0 true, mkCand names rm 1 false,
        mkCand names rm 1 true, mkCand names rm 2 false, mkCand names rm 2 true] := rfl
  refine ⟨r, ?_, ?_, ?_, pre, suf, ?_, hpre⟩
  · show bestBalancedSnakeForOrder names rm = some r
    unfold bestBalancedSnakeForOrder
    rw [hcands, List.foldl_cons]
    exact hr
  · rw [hcands, hsplit]
    exact List.mem_append_right pre (List.mem_cons_self r suf)
  · intro c hc
    rw [hcands] at hc
    rcases List.mem_cons.1 hc with rfl | hc
    · exact hrb
    · exact hall c hc
  · rw [hcands]
    exact hsplit

/-- C4.  `bestBalancedSnakeForOrder` returns one of the six snake candidates
whose (spread, variance) pair is lexicographically minimal — in particular a
candidate of minimal spread, so it never returns a candidate whose spread
exceeds that of another candidate with strictly lower spread — and among
ties it returns the first in enumeration order (startTeam 0,1,2 outer loop,
reverseFirst false-then-true inner loop): every earlier candidate is
lexicographically strictly worse. -/
theorem C4_select_best (names : List String) (rm : String → Rat) :
    ∃ best, bestBalancedSnakeForOrder names rm = some best ∧
      best ∈ snakeCandidates names rm ∧
      (∀ c ∈ snakeCandidates names rm, candLexLe best c) ∧
      (∀ c ∈ snakeCandidates names rm, best.spread ≤ c.spread) ∧
      ∃ pre suf, snakeCandidates names rm = pre ++ best :: suf ∧
        ∀ c ∈ pre, candLexLt best c := by
  obtain ⟨best, h1, h2, h3, h4⟩ := bestBalanced_spec names rm
  refine ⟨best, h1, h2, h3, fun c hc => ?_, h4⟩
  rcases h3 c hc with h | ⟨h, _⟩
  · exact le_of_lt h
  · exact le_of_eq h

theorem C4_select_best_witness :
    ∃ best, bestBalancedSnakeForOrder
        ["a", "b", "c", "d", "e", "f", "g", "h", "i", "j", "k", "l", "m", "n", "o"]
        (fun _ => 1) = some best ∧
      best ∈ snakeCandidates
        ["a", "b", "c", "d", "e", "f", "g", "h", "i", "j", "k", "l", "m", "n", "o"]
        (fun _ => 1) ∧
      (∀ c ∈ snakeCandidates
        ["a", "b", "c", "d", "e", "f", "g", "h", "i", "j", "k", "l", "m", "n", "o"]
        (fun _ => 1), candLexLe best c) ∧
      (∀ c ∈ snakeCandidates
        ["a", "b", "c", "d", "e", "f", "g", "h", "i", "j", "k", "l", "m", "n", "o"]
        (fun _ => 1), best.spread ≤ c.spread) ∧
      ∃ pre suf, snakeCandidates
          ["a", "b", "c", "d", "e", "f", "g", "h", "i", "j", "k", "l", "m", "n", "o"]
          (fun _ => 1) = pre ++ best :: suf ∧
        ∀ c ∈ pre, candLexLt best c :=
  C4_select_best ["a", "b", "c", "d", "e", "f", "g", "h", "i", "j", "k", "l", "m", "n",
    "o"] (fun _ => 1)

/-! ## C8: bounded novelty search -/

theorem chooseLoop_spec (coins : Nat → Bool) (rands : Nat → Nat → Nat → Nat)
    (base : List String) (rm : String → Rat) (seen : List String) :
    ∀ (fuel a : Nat),
      (∃ k, k < fuel ∧
        (∀ m, m < k → ∀ b, bestBalancedSnakeForOrder
            (chooseAttemptOrder coins rands base (a + m)) rm = some b →
          seen.contains b.key = true) ∧
        ∃ b, bestBalancedSnakeForOrder (chooseAttemptOrder coins rands base (a + k)) rm =
            some b ∧
          seen.contains b.key = false ∧
          chooseLoop coins rands base rm seen a fuel = some b) ∨
      ((∀ m, m < fuel → ∀ b, bestBalancedSnakeForOrder
          (chooseAttemptOrder coins rands base (a + m)) rm = some b →
        seen.contains b.key = true) ∧
        chooseLoop coins rands base rm seen a fuel = none) := by
  intro fuel
  induction fuel with
  | zero =>
    intro a
    exact Or.inr ⟨fun m hm => absurd hm (Nat.not_lt_zero m), rfl⟩
  | succ fuel ih =>
    intro a
    obtain ⟨b, hb, -⟩ := bestBalanced_spec (chooseAttemptOrder coins rands base a) rm
    have hstep : chooseLoop coins rands base rm seen a (fuel + 1) =
        (if seen.contains b.key then chooseLoop coins rands base rm seen (a + 1) fuel
          else some b) := by
      show (match bestBalancedSnakeForOrder (chooseAttemptOrder coins rands base a) rm with
        | none => none
        | some best =>
          if seen.contains best.key then chooseLoop coins rands base rm seen (a + 1) fuel
          else some best) = _
      rw [hb]
    by_cases hsb : seen.contains b.key = true
    · rw [if_pos hsb] at hstep
      rcases ih (a + 1) with ⟨k, hk, hall, b', hb', hsb', hloop⟩ | ⟨hall, hloop⟩
      · left
        refine ⟨k + 1, by omega, ?_, b', ?_, hsb', by rw [hstep]; exact hloop⟩
        · intro m hm b0 hb0
          cases m with
          | zero =>
            rw [Nat.add_zero] at hb0
            rw [hb0] at hb
            obtain rfl := Option.some_inj.1 hb
            exact hsb
          | succ m' =>
            have : a + (m' + 1) = a + 1 + m' := by omega
            rw [this] at hb0
            exact hall m' (by omega) b0 hb0
        · have : a + (k + 1) = a + 1 + k := by omega
          rw [this]
          exact hb'
      · right
        refine ⟨?_, by rw [hstep]; exact hloop⟩
        intro m hm b0 hb0
        cases m with
        | zero =>
          rw [Nat.add_zero] at hb0
          rw [hb0] at hb
          obtain rfl := Option.some_inj.1 hb
          exact hsb
        | succ m' =>
          have : a + (m' + 1) = a + 1 + m' := by omega
          rw [this] at hb0
          exact hall m' (by omega) b0 hb0
    · have hsb' : seen.contains b.key = false := by
        simpa using hsb
      rw [if_neg hsb] at hstep
      left
      exact ⟨0, by omega, fun m hm => absurd hm (Nat.not_lt_zero m),
        b, by rw [Nat.add_zero]; exact hb, hsb', hstep⟩

/-- C8.  `chooseNewBalancedSnake` always terminates with a composition: it
performs at most `attempts` attempts (each examining the base ordering or
its block-perturbed variant, per the coin oracle), returns the first
attempt's per-ordering best whose signature key is not in `seenKeys`, and
when every attempt within the budget is already seen it falls back to the
best candidate for the unperturbed base ordering — it never fails. -/
theorem C8_bounded_novelty (coins : Nat → Bool) (rands : Nat → Nat → Nat → Nat)
    (base : List String) (rm : String → Rat) (seen : List String) (attempts : Nat) :
    ∃ c, chooseNewBalancedSnake coins rands base rm seen attempts = some c ∧
      ((∃ a, a < attempts ∧
          bestBalancedSnakeForOrder (chooseAttemptOrder coins rands base a) rm = some c ∧
          seen.contains c.key = false ∧
          (∀ a', a' < a → ∀ b, bestBalancedSnakeForOrder
              (chooseAttemptOrder coins rands base a') rm = some b →
            seen.contains b.key = true)) ∨
        ((∀ a, a < attempts → ∀ b, bestBalancedSnakeForOrder
            (chooseAttemptOrder coins rands base a) rm = some b →
          seen.contains b.key = true) ∧
          bestBalancedSnakeForOrder base rm = some c)) := by
  rcases chooseLoop_spec coins rands base rm seen attempts 0 with
    ⟨k, hk, hall, b, hb, hsb, hloop⟩ | ⟨hall, hloop⟩
  · refine ⟨b, ?_, Or.inl ⟨k, hk, by rw [Nat.zero_add] at hb; exact hb, hsb, ?_⟩⟩
    · show (match chooseLoop coins rands base rm seen 0 attempts with
        | some best => some best
        | none => bestBalancedSnakeForOrder base rm) = some b
      rw [hloop]
    · intro a' ha' b0 hb0
      have : (0 : Nat) + a' = a' := Nat.zero_add a'
      exact hall a' ha' b0 (by rw [this]; exact hb0)
  · obtain ⟨c, hc, -⟩ := bestBalanced_spec base rm
    refine ⟨c, ?_, Or.inr ⟨?_, hc⟩⟩
    · show (match chooseLoop coins rands base rm seen 0 attempts with
        | some best => some best
        | none => bestBalancedSnakeForOrder base rm) = some c
      rw [hloop, hc]
    · intro a ha b0 hb0
      exact hall a ha b0 (by rw [Nat.zero_add]; exact hb0)

theorem C8_bounded_novelty_witness :
    ∃ c, chooseNewBalancedSnake (fun _ => false) (fun _ _ _ => 0)
        ["a", "b", "c", "d", "e", "f", "g", "h", "i", "j", "k", "l", "m", "n", "o"]
        (fun _ => 1) [] 60 = some c ∧
      ((∃ a, a < 60 ∧
          bestBalancedSnakeForOrder
            (chooseAttemptOrder (fun _ => false) (fun _ _ _ => 0)
              ["a", "b", "c", "d", "e", "f", "g", "h", "i", "j", "k", "l", "m", "n", "o"]
              a) (fun _ => 1) = some c ∧
          ([] : List String).contains c.key = false ∧
          (∀ a', a' < a → ∀ b, bestBalancedSnakeForOrder
              (chooseAttemptOrder (fun _ => false) (fun _ _ _ => 0)
                ["a", "b", "c", "d", "e", "f", "g", "h", "i", "j", "k", "l", "m", "n",
                  "o"] a') (fun _ => 1) = some b →
            ([] : List String).contains b.key = true)) ∨
        ((∀ a, a < 60 → ∀ b, bestBalancedSnakeForOrder
            (chooseAttemptOrder (fun _ => false) (fun _ _ _ => 0)
              ["a", "b", "c", "d", "e", "f", "g", "h", "i", "j", "k", "l", "m", "n", "o"]
              a) (fun _ => 1) = some b →
          ([] : List String).contains b.key = true) ∧
          bestBalancedSnakeForOrder
            ["a", "b", "c", "d", "e", "f", "g", "h", "i", "j", "k", "l", "m", "n", "o"]
            (fun _ => 1) = some c)) :=
  C8_bounded_novelty (fun _ => false) (fun _ _ _ => 0)
    ["a", "b", "c", "d", "e", "f", "g", "h", "i", "j", "k", "l", "m", "n", "o"]
    (fun _ => 1) [] 60

/-! ## The comparator order and sort canonicalization -/

theorem strLtB_irrefl : ∀ s : List Char, strLtB s s = false := by
  intro s
  induction s with
  | nil => rfl
  | cons a as ih =>
    show (if a < a then true else if a < a then false else strLtB as as) = false
    rw [if_neg (lt_irrefl a), if_neg (lt_irrefl a), ih]

theorem strLtB_asymm : ∀ x y : List Char, strLtB x y = true → strLtB y x = false := by
  intro x
  induction x with
  | nil =>
    intro y h
    cases y with
    | nil => exact absurd h (by simp [strLtB])
    | cons b bs => rfl
  | cons a as ih =>
    intro y h
    cases y with
    | nil => exact absurd h (by simp [strLtB])
    | cons b bs =>
      show (if b < a then true else if a < b then false else strLtB bs as) = false
      by_cases hab : a < b
      · rw [if_neg (lt_asymm hab), if_pos hab]
      · by_cases hba : b < a
        · have : strLtB (a :: as) (b :: bs) = false := by
            show (if a < b then true else if b < a then false else strLtB as bs) = false
            rw [if_neg hab, if_pos hba]
          rw [this] at h
          cases h
        · have heq : strLtB as bs = true := by
            have : strLtB (a :: as) (b :: bs) =
                (if a < b then true else if b < a then false else strLtB as bs) := rfl
            rw [this, if_neg hab, if_neg hba] at h
            exact h
          rw [if_neg hba, if_neg hab, ih bs heq]

theorem strLtB_trans : ∀ x y z : List Char, strLtB x y = true → strLtB y z = true →
    strLtB x z = true := by
  intro x
  induction x with
  | nil =>
    intro y z hxy hyz
    cases y with
    | nil => exact absurd hxy (by simp [strLtB])
    | cons b bs =>
      cases z with
      | nil => exact absurd hyz (by simp [strLtB])
      | cons c cs => rfl
  | cons a as ih =>
    intro y z hxy hyz
    cases y with
    | nil => exact absurd hxy (by simp [strLtB])
    | cons b bs =>
      cases z with
      | nil => exact absurd hyz (by simp [strLtB])
      | cons c cs =>
        have exy : strLtB (a :: as) (b :: bs) =
            (if a < b then true else if b < a then false else strLtB as bs) := rfl
        have eyz : strLtB (b :: bs) (c :: cs) =
            (if b < c then true else if c < b then false else strLtB bs cs) := rfl
        show (if a < c then true else if c < a then false else strLtB as cs) = true
        rw [exy] at hxy
        rw [eyz] at hyz
        by_cases hab : a < b
        · by_cases hbc : b < c
          · rw [if_pos (hab.trans hbc)]
          · by_cases hcb : c < b
            · rw [if_neg hbc, if_pos hcb] at hyz
              cases hyz
            · have hbceq : b = c := le_antisymm (not_lt.1 hcb) (not_lt.1 hbc)
              rw [if_pos (hbceq ▸ hab)]
        · by_cases hba : b < a
          · rw [if_neg hab, if_pos hba] at hxy
            cases hxy
          · have habeq : a = b := le_antisymm (not_lt.1 hba) (not_lt.1 hab)
            subst habeq
            rw [if_neg hab, if_neg hab] at hxy
            by_cases hac : a < c
            · rw [if_pos hac]
            · by_cases hca : c < a
              · rw [if_neg hac, if_pos hca] at hyz
                cases hyz
              · rw [if_neg hac, if_neg hca] at hyz
                rw [if_neg hac, if_neg hca, ih bs cs hxy hyz]

theorem strLtB_connex : ∀ x y : List Char, strLtB x y = false → strLtB y x = false →
    x = y := by
  intro x
  induction x with
  | nil =>
    intro y hxy _
    cases y with
    | nil => rfl
    | cons b bs => exact absurd hxy (by simp [strLtB])
  | cons a as ih =>
    intro y hxy hyx
    cases y with
    | nil => exact absurd hyx (by simp [strLtB])
    | cons b bs =>
      have exy : strLtB (a :: as) (b :: bs) =
          (if a < b then true else if b < a then false else strLtB as bs) := rfl
      have eyx : strLtB (b :: bs) (a :: as) =
          (if b < a then true else if a < b then false else strLtB bs as) := rfl
      rw [exy] at hxy
      rw [eyx] at hyx
      by_cases hab : a < b
      · rw [if_pos hab] at hxy
        cases hxy
      · by_cases hba : b < a
        · rw [if_pos hba] at hyx
          cases hyx
        · have habeq : a = b := le_antisymm (not_lt.1 hba) (not_lt.1 hab)
          subst habeq
          rw [if_neg hab, if_neg hab] at hxy hyx
          rw [ih bs hxy hyx]

instance : IsTotal String strLe :=
  ⟨fun a b => by
    unfold strLe
    by_cases h : strLtB b.data a.data = true
    · exact Or.inr (strLtB_asymm _ _ h)
    · exact Or.inl (by simpa using h)⟩

instance : IsTrans String strLe :=
  ⟨fun a b c hab hbc => by
    unfold strLe at *
    by_cases h : strLtB c.data a.data = true
    · by_cases h2 : strLtB a.data b.data = true
      · rw [strLtB_trans c.data a.data b.data h h2] at hbc
        cases hbc
      · have : a.data = b.data := strLtB_connex _ _ (by simpa using h2) hab
        rw [← this] at hbc
        rw [hbc] at h
        cases h
    · simpa using h⟩

instance : IsAntisymm String strLe :=
  ⟨fun a b hab hba => by
    unfold strLe at *
    have h : a.data = b.data := strLtB_connex _ _ hba hab
    obtain ⟨da⟩ := a
    obtain ⟨db⟩ := b
    exact congrArg String.mk h⟩

theorem sortStrings_perm (l : List String) : List.Perm (sortStrings l) l :=
  List.perm_insertionSort strLe l

theorem sortStrings_sorted (l : List String) : List.Sorted strLe (sortStrings l) :=
  List.sorted_insertionSort strLe l

theorem sortStrings_congr {l1 l2 : List String} (h : List.Perm l1 l2) :
    sortStrings l1 = sortStrings l2 :=
  List.eq_of_perm_of_sorted
    ((sortStrings_perm l1).trans (h.trans (sortStrings_perm l2).symm))
    (sortStrings_sorted l1) (sortStrings_sorted l2)

/-- C7.  The composition signature `teamKey` is invariant under any
permutation of the three group slots together with any permutation of the
names within each group. -/
theorem forall2_perm_map (l1 l2 : List (List String))
    (h : List.Forall₂ (fun a b => List.Perm a b) l1 l2) :
    l1.map (fun t => joinSep "|" (sortStrings t)) =
      l2.map (fun t => joinSep "|" (sortStrings t)) := by
  induction h with
  | nil => rfl
  | cons hab _ ih =>
    simp only [List.map_cons, ih, sortStrings_congr hab]

/-- C7.  The composition signature `teamKey` is invariant under any
permutation of the three group slots together with any permutation of the
names within each group. -/
theorem C7_signature_invariance (t1 t2 : List (List String))
    (h : ∃ t', List.Perm t1 t' ∧ List.Forall₂ (fun a b => List.Perm a b) t' t2) :
    teamKey t1 = teamKey t2 := by
  obtain ⟨t', hperm, hf2⟩ := h
  have hmap := forall2_perm_map t' t2 hf2
  have hp : List.Perm (t1.map (fun t => joinSep "|" (sortStrings t)))
      (t'.map (fun t => joinSep "|" (sortStrings t))) := hperm.map _
  simp only [teamKey]
  rw [← hmap, sortStrings_congr hp]

theorem C7_signature_invariance_witness :
    teamKey [["b", "a"], ["c", "d"], ["e"]] = teamKey [["c", "d"], ["e"], ["a", "b"]] :=
  C7_signature_invariance [["b", "a"], ["c", "d"], ["e"]]
    [["c", "d"], ["e"], ["a", "b"]]
    ⟨[["c", "d"], ["e"], ["b", "a"]], by decide,
      List.Forall₂.cons (by decide)
        (List.Forall₂.cons (by decide) (List.Forall₂.cons (by decide) List.Forall₂.nil))⟩

/-! ## C10: the signature determines the partition -/

theorem joinSep_bar_data : ∀ (ys : List String) (x : String),
    (joinSep "|" (x :: ys)).data = joinChars ((x :: ys).map String.data) := by
  intro ys
  induction ys with
  | nil => intro x; rfl
  | cons y ys' ih =>
    intro x
    have habs : joinSep "|" (x :: y :: ys') = joinSep "|" ((x ++ "|" ++ y) :: ys') := rfl
    rw [habs, ih (x ++ "|" ++ y)]
    have hdata : (x ++ "|" ++ y).data = x.data ++ '|' :: y.data := by
      rw [String.data_append, String.data_append]
      simp
    rw [List.map_cons, hdata]
    cases ys' with
    | nil => rfl
    | cons z zs =>
      show (x.data ++ '|' :: y.data) ++ '|' :: joinChars ((z :: zs).map String.data) =
        x.data ++ '|' :: (y.data ++ '|' :: joinChars ((z :: zs).map String.data))
      simp [List.append_assoc]

theorem barFree_noDoubleBar (s : List Char) (h : '|' ∉ s) : noDoubleBar s := by
  induction s with
  | nil => exact List.chain'_nil
  | cons a t ih =>
    cases t with
    | nil => exact List.chain'_singleton a
    | cons b t' =>
      refine List.chain'_cons.2 ⟨fun hc => ?_,
        ih (fun hm => h (List.mem_cons_of_mem a hm))⟩
      apply h
      rw [← hc.1]
      exact List.mem_cons_self a _

theorem barFree_lastNotBar (s : List Char) (h : '|' ∉ s) : lastNotBar s := by
  intro he
  exact h (List.mem_of_getLast?_eq_some he)

theorem joinChars_ne_nil (d : List Char) (rest : List (List Char)) (hd : d ≠ []) :
    joinChars (d :: rest) ≠ [] := by
  cases rest with
  | nil => exact hd
  | cons r rs =>
    show d ++ '|' :: joinChars (r :: rs) ≠ []
    simp

theorem joinChars_head? (d : List Char) (rest : List (List Char)) (hd : d ≠ []) :
    (joinChars (d :: rest)).head? = d.head? := by
  cases rest with
  | nil => rfl
  | cons r rs =>
    rcases d with _ | ⟨c, d'⟩
    · exact absurd rfl hd
    · rfl

theorem joinChars_noDB : ∀ (ds : List (List Char)), (∀ d ∈ ds, '|' ∉ d) →
    (∀ d ∈ ds.tail, d ≠ []) → noDoubleBar (joinChars ds) := by
  intro ds
  induction ds with
  | nil => intro _ _; exact List.chain'_nil
  | cons s rest ih =>
    intro hbar htail
    cases rest with
    | nil => exact barFree_noDoubleBar s (hbar s (by simp))
    | cons r rs =>
      show noDoubleBar (s ++ '|' :: joinChars (r :: rs))
      rw [noDoubleBar, List.chain'_append]
      have hrne : r ≠ [] := htail r (by simp)
      refine ⟨barFree_noDoubleBar s (hbar s (by simp)), ?_, ?_⟩
      · have hjc : noDoubleBar (joinChars (r :: rs)) :=
          ih (fun d hd => hbar d (List.mem_cons_of_mem s hd))
            (fun d hd => htail d (List.mem_cons_of_mem r hd))
        refine List.chain'_cons'.2 ⟨?_, hjc⟩
        intro y hy hc
        rw [joinChars_head? r rs hrne] at hy
        apply hbar r (by simp)
        rw [← hc.2]
        exact List.mem_of_mem_head? hy
      · intro x hx y hy hc
        apply hbar s (by simp)
        rw [← hc.1]
        exact List.mem_of_getLast?_eq_some hx

theorem joinChars_lastNotBar : ∀ (ds : List (List Char)), (∀ d ∈ ds, '|' ∉ d) →
    (∀ d ∈ ds.tail, d ≠ []) → lastNotBar (joinChars ds) := by
  intro ds
  induction ds with
  | nil => intro _ _; simp [lastNotBar, joinChars]
  | cons s rest ih =>
    intro hbar htail
    cases rest with
    | nil => exact barFree_lastNotBar s (hbar s (by simp))
    | cons r rs =>
      show lastNotBar (s ++ '|' :: joinChars (r :: rs))
      have hrne : r ≠ [] := htail r (by simp)
      have hlast : lastNotBar (joinChars (r :: rs)) :=
        ih (fun d hd => hbar d (List.mem_cons_of_mem s hd))
          (fun d hd => htail d (List.mem_cons_of_mem r hd))
      have hne := joinChars_ne_nil r rs hrne
      unfold lastNotBar
      rw [List.getLast?_append]
      rcases e2 : joinChars (r :: rs) with _ | ⟨c, cs⟩
      · exact absurd e2 hne
      · rw [e2] at hlast
        rw [List.getLast?_cons_cons]
        rcases e3 : (c :: cs).getLast? with _ | z
        · exact absurd (List.getLast?_eq_none_iff.1 e3) (by simp)
        · unfold lastNotBar at hlast
          rw [e3] at hlast
          exact hlast

theorem split2_append : ∀ (s : List Char), noDoubleBar s → lastNotBar s →
    ∀ r, split2 (s ++ '|' :: '|' :: r) = (s, some r) := by
  intro s
  induction s with
  | nil =>
    intro _ _ r
    simp [split2]
  | cons c s' ih =>
    intro hdb hlb r
    cases s' with
    | nil =>
      have hc : c ≠ '|' := by
        simpa [lastNotBar] using hlb
      show split2 (c :: '|' :: '|' :: r) = ([c], some r)
      simp [split2, hc]
    | cons d s'' =>
      have hpair : ¬(c = '|' ∧ d = '|') := (List.chain'_cons.1 hdb).1
      have hdb' : noDoubleBar (d :: s'') := (List.chain'_cons.1 hdb).2
      have hlb' : lastNotBar (d :: s'') := by
        simpa [lastNotBar, List.getLast?_cons_cons] using hlb
      show split2 (c :: ((d :: s'') ++ '|' :: '|' :: r)) = (c :: d :: s'', some r)
      have h1 : (split2 ((d :: s'') ++ '|' :: '|' :: r)).1 = d :: s'' := by
        rw [ih hdb' hlb' r]
      have h2 : (split2 ((d :: s'') ++ '|' :: '|' :: r)).2 = some r := by
        rw [ih hdb' hlb' r]
      rw [List.cons_append] at h1 h2
      simp [split2, hpair, h1, h2]

theorem joinSep2_data (a b c : String) :
    (joinSep "||" [a, b, c]).data =
      a.data ++ '|' :: '|' :: (b.data ++ '|' :: '|' :: c.data) := by
  show ((a ++ "||" ++ b) ++ "||" ++ c).data = _
  simp only [String.data_append, List.append_assoc]
  rfl

theorem split1_barFree (d : List Char) (h : '|' ∉ d) : split1 d = [d] := by
  induction d with
  | nil => rfl
  | cons c d' ih =>
    have hc : c ≠ '|' := fun e => h (by rw [← e]; exact List.mem_cons_self c d')
    have ih' := ih (fun hm => h (List.mem_cons_of_mem c hm))
    simp [split1, hc, ih']

theorem split1_append_bar :
    ∀ (d : List Char), '|' ∉ d → ∀ (x : List Char),
      split1 (d ++ '|' :: x) = d :: split1 x := by
  intro d
  induction d with
  | nil => intro _ x; simp [split1]
  | cons c d' ih =>
    intro h x
    have hc : c ≠ '|' := fun e => h (by rw [← e]; exact List.mem_cons_self c d')
    have ih' := ih (fun hm => h (List.mem_cons_of_mem c hm)) x
    show split1 (c :: (d' ++ '|' :: x)) = (c :: d') :: split1 x
    simp [split1, hc, ih']

theorem split1_joinChars : ∀ (ds : List (List Char)), (∀ d ∈ ds, '|' ∉ d) →
    ds ≠ [] → split1 (joinChars ds) = ds := by
  intro ds
  induction ds with
  | nil => intro _ h; exact absurd rfl h
  | cons d rest ih =>
    intro hbar _
    cases rest with
    | nil => exact split1_barFree d (hbar d (by simp))
    | cons r rs =>
      show split1 (d ++ '|' :: joinChars (r :: rs)) = d :: r :: rs
      rw [split1_append_bar d (hbar d (by simp)),
        ih (fun x hx => hbar x (List.mem_cons_of_mem d hx)) (by simp)]

theorem sortStrings_ne_nil (g : List String) (h : g ≠ []) : sortStrings g ≠ [] := by
  intro e
  apply h
  have hp := sortStrings_perm g
  rw [e] at hp
  exact (hp.symm).eq_nil

theorem le_empty_eq (y : String) (h : strLe y "") : y = "" := by
  unfold strLe at h
  rcases e : y.data with _ | ⟨c, cs⟩
  · obtain ⟨dy⟩ := y
    exact congrArg String.mk e
  · rw [show ("" : String).data = [] from rfl, e] at h
    exact absurd h (by simp [strLtB])

theorem sorted_tail_ne_empty (g : List String) (hnd : g.Nodup) :
    ∀ s ∈ (sortStrings g).tail, s ≠ "" := by
  have hnds : (sortStrings g).Nodup := ((sortStrings_perm g).nodup_iff).2 hnd
  rcases e : sortStrings g with _ | ⟨s0, st⟩
  · simp
  · intro s hs he
    have hsorted := sortStrings_sorted g
    rw [e] at hsorted hnds
    have hle : strLe s0 s := (List.pairwise_cons.1 hsorted).1 s hs
    rw [he] at hle
    have hs0 : s0 = "" := le_empty_eq s0 hle
    rw [hs0] at hnds
    rw [he] at hs
    exact (List.nodup_cons.1 hnds).1 hs

theorem groupString_data (g : List String) (h : g ≠ []) :
    (groupString g).data = joinChars ((sortStrings g).map String.data) := by
  unfold groupString
  rcases e : sortStrings g with _ | ⟨s0, st⟩
  · exact absurd e (sortStrings_ne_nil g h)
  · exact joinSep_bar_data st s0

theorem groupString_barMem (g : List String) (hbar : ∀ n ∈ g, '|' ∉ n.data) :
    ∀ d ∈ (sortStrings g).map String.data, '|' ∉ d := by
  intro d hd
  obtain ⟨n, hn, rfl⟩ := List.mem_map.1 hd
  exact hbar n ((sortStrings_perm g).mem_iff.1 hn)

theorem groupString_tailNe (g : List String) (hnd : g.Nodup) :
    ∀ d ∈ ((sortStrings g).map String.data).tail, d ≠ [] := by
  intro d hd
  rw [← List.map_tail] at hd
  obtain ⟨n, hn, rfl⟩ := List.mem_map.1 hd
  have hne := sorted_tail_ne_empty g hnd n hn
  intro hdn
  apply hne
  obtain ⟨dn⟩ := n
  exact congrArg String.mk hdn

theorem groupString_props (g : List String) (hg : g ≠ []) (hnd : g.Nodup)
    (hbar : ∀ n ∈ g, '|' ∉ n.data) :
    noDoubleBar (groupString g).data ∧ lastNotBar (groupString g).data := by
  rw [groupString_data g hg]
  exact ⟨joinChars_noDB _ (groupString_barMem g hbar) (groupString_tailNe g hnd),
    joinChars_lastNotBar _ (groupString_barMem g hbar) (groupString_tailNe g hnd)⟩

theorem decode_groupString (g : List String) (hg : g ≠ []) (_hnd : g.Nodup)
    (hbar : ∀ n ∈ g, '|' ∉ n.data) :
    ((split1 (groupString g).data).map String.mk).toFinset = g.toFinset := by
  rw [groupString_data g hg,
    split1_joinChars _ (groupString_barMem g hbar)
      (by simpa using sortStrings_ne_nil g hg),
    List.map_map]
  have hid : (sortStrings g).map (String.mk ∘ String.data) = sortStrings g := by
    have h1 : (sortStrings g).map (String.mk ∘ String.data) =
        (sortStrings g).map id := by
      refine List.map_congr_left (fun n _ => ?_)
      obtain ⟨dn⟩ := n
      rfl
    rw [h1, List.map_id]
  rw [hid]
  exact List.toFinset_eq_of_perm _ _ (sortStrings_perm g)

theorem exists_three' {α : Type} (l : List α) (h : l.length = 3) :
    ∃ a b c, l = [a, b, c] := by
  rcases l with _ | ⟨a, l⟩
  · simp at h
  rcases l with _ | ⟨b, l⟩
  · simp at h
  rcases l with _ | ⟨c, l⟩
  · simp at h
  rcases l with _ | ⟨d, l⟩
  · exact ⟨a, b, c, rfl⟩
  · simp at h

theorem nodup_of_flatten_nodup (t : List (List String)) (h : t.flatten.Nodup) :
    ∀ g ∈ t, g.Nodup :=
  fun g hg => (List.nodup_flatten.1 h).1 g hg

/-- C10 (implicit).  For compositions (three non-empty groups of distinct
identifiers) over identifiers free of the `'|'` character, equal `teamKey`
signatures force equal partitions: the multisets of group member-sets
coincide, so the `seenKeys` novelty check never conflates genuinely
different compositions of such rosters. -/
theorem C10_signature_completeness (t1 t2 : List (List String))
    (hl1 : t1.length = 3) (hl2 : t2.length = 3)
    (hne1 : ∀ g ∈ t1, g ≠ []) (hne2 : ∀ g ∈ t2, g ≠ [])
    (hnd1 : t1.flatten.Nodup) (hnd2 : t2.flatten.Nodup)
    (hbar1 : ∀ g ∈ t1, ∀ n ∈ g, '|' ∉ n.data)
    (hbar2 : ∀ g ∈ t2, ∀ n ∈ g, '|' ∉ n.data)
    (hkey : teamKey t1 = teamKey t2) :
    (↑(t1.map List.toFinset) : Multiset (Finset String)) = ↑(t2.map List.toFinset) := by
  have hteq : ∀ t : List (List String),
      teamKey t = joinSep "||" (sortStrings (t.map groupString)) := fun t => rfl
  obtain ⟨a1, a2, a3, ha⟩ := exists_three' (sortStrings (t1.map groupString))
    (by rw [(sortStrings_perm _).length_eq, List.length_map, hl1])
  obtain ⟨b1, b2, b3, hb⟩ := exists_three' (sortStrings (t2.map groupString))
    (by rw [(sortStrings_perm _).length_eq, List.length_map, hl2])
  have hprops : ∀ (t : List (List String)), (∀ g ∈ t, g ≠ []) → t.flatten.Nodup →
      (∀ g ∈ t, ∀ n ∈ g, '|' ∉ n.data) →
      ∀ x ∈ sortStrings (t.map groupString),
        noDoubleBar x.data ∧ lastNotBar x.data := by
    intro t hne hnd hbar x hx
    have hx' : x ∈ t.map groupString := (sortStrings_perm _).subset hx
    obtain ⟨g, hg, rfl⟩ := List.mem_map.1 hx'
    exact groupString_props g (hne g hg) (nodup_of_flatten_nodup t hnd g hg) (hbar g hg)
  have pa1 := hprops t1 hne1 hnd1 hbar1 a1 (by rw [ha]; simp)
  have pa2 := hprops t1 hne1 hnd1 hbar1 a2 (by rw [ha]; simp)
  have pb1 := hprops t2 hne2 hnd2 hbar2 b1 (by rw [hb]; simp)
  have pb2 := hprops t2 hne2 hnd2 hbar2 b2 (by rw [hb]; simp)
  have hk1 : teamKey t1 = joinSep "||" [a1, a2, a3] := by rw [hteq, ha]
  have hk2 : teamKey t2 = joinSep "||" [b1, b2, b3] := by rw [hteq, hb]
  have hdata : a1.data ++ '|' :: '|' :: (a2.data ++ '|' :: '|' :: a3.data) =
      b1.data ++ '|' :: '|' :: (b2.data ++ '|' :: '|' :: b3.data) := by
    rw [← joinSep2_data, ← joinSep2_data, ← hk1, ← hk2, hkey]
  have s1 := split2_append a1.data pa1.1 pa1.2 (a2.data ++ '|' :: '|' :: a3.data)
  have s1' := split2_append b1.data pb1.1 pb1.2 (b2.data ++ '|' :: '|' :: b3.data)
  have e1 : (a1.data, some (a2.data ++ '|' :: '|' :: a3.data)) =
      (b1.data, some (b2.data ++ '|' :: '|' :: b3.data)) := by
    rw [← s1, ← s1', hdata]
  have e1a : a1.data = b1.data := congrArg Prod.fst e1
  have e1r : a2.data ++ '|' :: '|' :: a3.data = b2.data ++ '|' :: '|' :: b3.data :=
    Option.some_inj.1 (congrArg Prod.snd e1)
  have s2 := split2_append a2.data pa2.1 pa2.2 a3.data
  have s2' := split2_append b2.data pb2.1 pb2.2 b3.data
  have e2 : (a2.data, some a3.data) = (b2.data, some b3.data) := by
    rw [← s2, ← s2', e1r]
  have e2a : a2.data = b2.data := congrArg Prod.fst e2
  have e3a : a3.data = b3.data := Option.some_inj.1 (congrArg Prod.snd e2)
  have ea1 : a1 = b1 := by
    obtain ⟨d1⟩ := a1
    obtain ⟨d2⟩ := b1
    exact congrArg String.mk e1a
  have ea2 : a2 = b2 := by
    obtain ⟨d1⟩ := a2
    obtain ⟨d2⟩ := b2
    exact congrArg String.mk e2a
  have ea3 : a3 = b3 := by
    obtain ⟨d1⟩ := a3
    obtain ⟨d2⟩ := b3
    exact congrArg String.mk e3a
  have hsorteq : sortStrings (t1.map groupString) = sortStrings (t2.map groupString) := by
    rw [ha, hb, ea1, ea2, ea3]
  have hperm : List.Perm (t1.map groupString) (t2.map groupString) :=
    (sortStrings_perm (t1.map groupString)).symm.trans
      (by rw [hsorteq]; exact sortStrings_perm _)
  have hdec : ∀ (t : List (List String)), (∀ g ∈ t, g ≠ []) → t.flatten.Nodup →
      (∀ g ∈ t, ∀ n ∈ g, '|' ∉ n.data) →
      (t.map groupString).map (fun s => ((split1 s.data).map String.mk).toFinset) =
        t.map List.toFinset := by
    intro t hne hnd hbar
    rw [List.map_map]
    refine List.map_congr_left (fun g hg => ?_)
    exact decode_groupString g (hne g hg) (nodup_of_flatten_nodup t hnd g hg) (hbar g hg)
  have hfin : List.Perm (t1.map List.toFinset) (t2.map List.toFinset) := by
    rw [← hdec t1 hne1 hnd1 hbar1, ← hdec t2 hne2 hnd2 hbar2]
    exact hperm.map _
  exact Multiset.coe_eq_coe.2 hfin

theorem C10_signature_completeness_witness :
    (↑(([["a", "b", "c", "d", "e"], ["f", "g", "h", "i", "j"],
        ["k", "l", "m", "n", "o"]] : List (List String)).map List.toFinset) :
      Multiset (Finset String)) =
      ↑(([["f", "j", "i", "h", "g"], ["e", "d", "c", "b", "a"],
        ["o", "n", "m", "l", "k"]] : List (List String)).map List.toFinset) :=
  C10_signature_completeness
    [["a", "b", "c", "d", "e"], ["f", "g", "h", "i", "j"], ["k", "l", "m", "n", "o"]]
    [["f", "j", "i", "h", "g"], ["e", "d", "c", "b", "a"], ["o", "n", "m", "l", "k"]]
    (by decide) (by decide) (by decide) (by decide) (by decide) (by decide)
    (by decide) (by decide) (by decide)

end FutsalBot
